import Mathlib

/-!
Verification of the Transcripts_explorer core algorithms.

This file gives a shallow embedding of the algorithmic core of the
repository and proves (or refutes) the specified properties:

* `scripts/topology.py`:
  - the alignment/topology projection walk inside
    `create_membrane_topology_objects` (`project`),
  - the run-length segment encoder inside the same function
    (`encodeRuns` / `seqData`),
  - the isoform grouping and labelling of `generate_isoform_mapping`
    (`headerMapping` / `transcriptMapping`), together with the FASTA
    grouping performed by `get_transcripts_and_sequences`
    (`idsOfSeq` / `fastaHeaders`).
* `scripts/expression.py`:
  - the boxplot statistics of `get_boxplot_stats` inside
    `create_expression_figure_objects` (`getBoxplotStats`).

Strings are modelled as `List Char`; Python float values are modelled by
`ℚ` (the boxplot code only performs field operations and comparisons, and
the quartile positions 0.25, 0.5, 0.75 and the factor 1.5 are exact in
binary floating point); a pandas `NaN` entry is modelled by `none` in
`Option ℚ`, matching pandas' documented missing-data semantics
(`skipna` aggregation, comparisons with `NaN` being false).

Python's `list.sort` and `sorted` are stable sorts; they are modelled by
the stable insertion sort `sortLe` below (any two stable sorts agree on
every input). A Python exception is modelled by `none` / `Except.error`.
-/

/-! ### Definitions: a stable sort, modelling Python `list.sort` -/

def insertLe {α : Type} (le : α → α → Bool) (x : α) : List α → List α
  | [] => [x]
  | y :: ys => if le x y then x :: y :: ys else y :: insertLe le x ys

def sortLe {α : Type} (le : α → α → Bool) : List α → List α
  | [] => []
  | x :: xs => insertLe le x (sortLe le xs)

/-- Lexicographic comparison of `List Char`, modelling Python string `<=`. -/
def lexLe : List Char → List Char → Bool
  | [], _ => true
  | _ :: _, [] => false
  | a :: as, b :: bs => if a < b then true else if b < a then false else lexLe as bs

/-- Decimal digit list of a natural number, structurally recursive version of
core `Nat.toDigits 10` (used to reason about `Nat.repr`). -/
def toDigitsClean (n : Nat) : List Char :=
  if h : n < 10 then [Nat.digitChar n]
  else toDigitsClean (n / 10) ++ [Nat.digitChar (n % 10)]
decreasing_by exact Nat.div_lt_self (by omega) (by omega)

/-- Value of a decimal digit string, inverse of `toDigitsClean`. -/
def digitsVal (l : List Char) : Nat :=
  l.foldl (fun a c => 10 * a + (c.toNat - 48)) 0

/-! ### Definitions: alignment projection and segment encoding
(`create_membrane_topology_objects` in `scripts/topology.py`) -/

/-- Number of non-gap characters of an aligned sequence. -/
def countNonGap (A : List Char) : Nat :=
  (A.filter (fun c => c != '-')).length

/-- Delete all gap characters. -/
def stripGaps (P : List Char) : List Char :=
  P.filter (fun c => c != '-')

/-- The projection walk of `create_membrane_topology_objects`: walk the
aligned sequence `A`; on a gap emit `-`, otherwise emit the next character
of the raw topology string `T` (cursor `j`). Python's `topology[j]` raises
`IndexError` when the cursor runs past the end of `T`; that exception is
modelled by `none`. Surplus characters of `T` are left unread, exactly as
in the source. -/
def project : List Char → List Char → Option (List Char)
  | [], _ => some []
  | c :: A, T =>
    if c = '-' then
      (project A T).map (fun P => '-' :: P)
    else
      match T with
      | [] => none
      | t :: T' => (project A T').map (fun P => t :: P)

/-- The run-length scan of `create_membrane_topology_objects`: `pos` is the
enumeration index, the optional `(current_feature, start)` pair is the open
run (`current_feature is None` at the start). Each closed run is emitted as
`(feature, start, width)`. -/
def rleAux : List Char → Nat → Option (Char × Nat) → List (Char × Nat × Nat)
  | [], pos, cur =>
    match cur with
    | none => []
    | some (c, s) => [(c, s, pos - s)]
  | ch :: rest, pos, cur =>
    match cur with
    | none => rleAux rest (pos + 1) (some (ch, pos))
    | some (c, s) =>
      if ch = c then rleAux rest (pos + 1) (some (c, s))
      else (c, s, pos - s) :: rleAux rest (pos + 1) (some (ch, pos))

/-- All runs of a topology string, in scan order. -/
def encodeRuns (P : List Char) : List (Char × Nat × Nat) :=
  rleAux P 0 none

/-- The `(start, width)` list stored in `seq_data` under label `c`
(the dict groups the runs by feature character, keeping scan order). -/
def seqData (P : List Char) (c : Char) : List (Nat × Nat) :=
  ((encodeRuns P).filter (fun r => r.1 == c)).map Prod.snd

/-- Materialize a run list back into characters. -/
def decodeRuns (runs : List (Char × Nat × Nat)) : List Char :=
  (runs.map (fun r => List.replicate r.2.2 r.1)).flatten

/-- `Tiles a runs b` states that the runs exactly tile the interval
`[a, b)`: consecutive starts, positive widths, no gaps or overlaps. -/
def Tiles : Nat → List (Char × Nat × Nat) → Nat → Prop
  | a, [], b => a = b
  | a, r :: rest, b => r.2.1 = a ∧ 0 < r.2.2 ∧ Tiles (a + r.2.2) rest b

/-! ### Definitions: isoform grouping and labelling
(`get_transcripts_and_sequences` and `generate_isoform_mapping`) -/

/-- Python `header.split("|")` (`"".split("|") == [""]`, empty parts kept). -/
def splitPipe : List Char → List (List Char)
  | [] => [[]]
  | c :: rest =>
    if c = '|' then [] :: splitPipe rest
    else
      match splitPipe rest with
      | [] => [[c]]
      | g :: gs => (c :: g) :: gs

/-- Python `"|".join(ids)`. -/
def joinPipe : List (List Char) → List Char
  | [] => []
  | [x] => x
  | x :: y :: rest => x ++ '|' :: joinPipe (y :: rest)

/-- `transcript_ids.sort()` on the ids of one header. -/
def sortIds (ids : List (List Char)) : List (List Char) :=
  sortLe lexLe ids

/-- The sorted id list of a header (`header.split("|")` then `.sort()`),
the `all_ids` field of `generate_isoform_mapping`. -/
def canon (header : List Char) : List (List Char) :=
  sortIds (splitPipe header)

/-- The lexicographically smallest transcript id of a header
(`transcript_ids[0]` after the sort). -/
def representative (header : List Char) : List Char :=
  (canon header).headD []

/-- Comparison of headers by representative id, the key of
`temp_list.sort(key=lambda x: x["representative"])`. -/
def repLe (h h' : List Char) : Bool :=
  lexLe (representative h) (representative h')

/-- The headers in the order produced by sorting on the representative id. -/
def tempSorted (headers : List (List Char)) : List (List Char) :=
  sortLe repLe headers

/-- `f"Isoform {i+1}"` with `k = i + 1`. -/
def isoformName (k : Nat) : String :=
  "Isoform " ++ Nat.repr k

/-- The `header_mapping` entries in group order, starting at label number `k`. -/
def headerLabelsFrom (k : Nat) : List (List Char) → List (List Char × String)
  | [] => []
  | h :: hs => (h, isoformName k) :: headerLabelsFrom (k + 1) hs

/-- The `header_mapping` dict built by `generate_isoform_mapping`
(as an association list in insertion order). -/
def headerMapping (headers : List (List Char)) : List (List Char × String) :=
  headerLabelsFrom 1 (tempSorted headers)

/-- The `transcript_mapping` rows for a list of sorted id groups, starting
at label number `k`. -/
def labelFrom (k : Nat) : List (List (List Char)) → List (List Char × String)
  | [] => []
  | g :: gs => g.map (fun tid => (tid, isoformName k)) ++ labelFrom (k + 1) gs

/-- The `transcript_mapping` rows built by `generate_isoform_mapping`
(in construction order, before the final sort of the CSV by transcript id). -/
def transcriptMapping (headers : List (List Char)) : List (List Char × String) :=
  labelFrom 1 ((tempSorted headers).map canon)

/-- `generate_isoform_mapping` as a fallible function. After building the
mappings the source runs `mapping_df.sort_values("Transcript_ID")`; on an
empty header list the mapping table has no rows, hence no columns, and
pandas raises `KeyError: 'Transcript_ID'` before anything is returned.
That exception is the `Except.error` case. -/
def generateIsoformMapping (headers : List (List Char)) :
    Except String (List (List Char × String)) :=
  if (transcriptMapping headers).isEmpty then
    Except.error "KeyError: Transcript_ID"
  else
    Except.ok (headerMapping headers)

/-- `[k for k, v in protein_sequences.items() if v == seq]` from
`get_transcripts_and_sequences`; `ps` models the `protein_sequences` dict
as an association list in insertion order. -/
def idsOfSeq (ps : List (List Char × List Char)) (s : List Char) : List (List Char) :=
  (ps.filter (fun kv => kv.2 == s)).map Prod.fst

/-- The FASTA headers written by `get_transcripts_and_sequences`:
one header `"|".join(ids)` per unique sequence. The enumeration order of
the Python `set` of sequences is not specified; it is passed as `seqs`. -/
def fastaHeaders (ps : List (List Char × List Char)) (seqs : List (List Char)) :
    List (List Char) :=
  seqs.map (fun s => joinPipe (idsOfSeq ps s))

/-! ### Definitions: boxplot statistics
(`get_boxplot_stats` in `scripts/expression.py`) -/

/-- Boolean `≤` on ℚ. -/
def qle (a b : ℚ) : Bool := decide (a ≤ b)

/-- Sorting the group values (the order statistics used by `quantile`). -/
def sortQ (l : List ℚ) : List ℚ := sortLe qle l

/-- Linear-interpolation quantile on a sorted list: the pandas/numpy
`linear` method. Position `p = q * (n - 1)`, lower order statistic at
`⌊p⌋`, fractional part `p - ⌊p⌋`. -/
def quantileSorted (s : List ℚ) (q : ℚ) : ℚ :=
  let p : ℚ := q * ((s.length : ℚ) - 1)
  let i : ℕ := ⌊p⌋₊
  s.getD i 0 + (p - (i : ℚ)) * (s.getD (i + 1) 0 - s.getD i 0)

/-- `Series.quantile(q)` of a pandas series: `NaN` entries are skipped
(`skipna`), the remaining values are sorted and interpolated. -/
def seriesQuantile (V : List (Option ℚ)) (q : ℚ) : ℚ :=
  quantileSorted (sortQ (V.filterMap id)) q

/-- Boolean-mask filtering of a pandas series: a comparison with `NaN` is
false, so `NaN` rows never satisfy the mask. -/
def seriesFilter (V : List (Option ℚ)) (pred : ℚ → Bool) : List (Option ℚ) :=
  V.filter (fun ov => match ov with | none => false | some v => pred v)

/-- `Series.min()` (skipna): `none` when no non-`NaN` value exists. -/
def seriesMin (V : List (Option ℚ)) : Option ℚ :=
  (V.filterMap id).min?

/-- `Series.max()` (skipna). -/
def seriesMax (V : List (Option ℚ)) : Option ℚ :=
  (V.filterMap id).max?

/-- The record produced by `get_boxplot_stats` for one group
(the plotting fields `x` and `marker_color` are outside the numeric core). -/
structure BoxStats where
  med : ℚ
  q1 : ℚ
  q3 : ℚ
  lowerfence : ℚ
  upperfence : ℚ
  fliers : List ℚ
  deriving DecidableEq, Repr

/-- `med = group_data.median()` (pandas median is the 0.5 quantile). -/
def groupMed (V : List (Option ℚ)) : ℚ := seriesQuantile V (1/2)

/-- `q1 = group_data.quantile(0.25)`. -/
def groupQ1 (V : List (Option ℚ)) : ℚ := seriesQuantile V (1/4)

/-- `q3 = group_data.quantile(0.75)`. -/
def groupQ3 (V : List (Option ℚ)) : ℚ := seriesQuantile V (3/4)

/-- `iqr = q3 - q1`. -/
def iqrOf (V : List (Option ℚ)) : ℚ := groupQ3 V - groupQ1 V

/-- `low_limit = q1 - 1.5 * iqr`. -/
def lowLimit (V : List (Option ℚ)) : ℚ := groupQ1 V - 3/2 * iqrOf V

/-- `high_limit = q3 + 1.5 * iqr`. -/
def highLimit (V : List (Option ℚ)) : ℚ := groupQ3 V + 3/2 * iqrOf V

/-- `inside_data = group_data[(group_data >= low_limit) & (group_data <= high_limit)]`. -/
def insideData (V : List (Option ℚ)) : List (Option ℚ) :=
  seriesFilter V (fun v => qle (lowLimit V) v && qle v (highLimit V))

/-- `lowerfence = inside_data.min() if not inside_data.empty else q1`. -/
def lowerfenceOf (V : List (Option ℚ)) : ℚ :=
  (seriesMin (insideData V)).getD (groupQ1 V)

/-- `upperfence = inside_data.max() if not inside_data.empty else q3`. -/
def upperfenceOf (V : List (Option ℚ)) : ℚ :=
  (seriesMax (insideData V)).getD (groupQ3 V)

/-- `fliers = group_data[(group_data < lowerfence) | (group_data > upperfence)].tolist()`. -/
def fliersOf (V : List (Option ℚ)) : List ℚ :=
  (seriesFilter V (fun v => decide (v < lowerfenceOf V) || decide (v > upperfenceOf V))).filterMap id

/-- `get_boxplot_stats` from `create_expression_figure_objects`:
quartiles by linear interpolation, 1.5·IQR limits, whisker ends at the
extreme values inside the limits (falling back to `q1`/`q3` when no value
is inside), and the out-of-fence values as fliers. -/
def getBoxplotStats (V : List (Option ℚ)) : BoxStats :=
  ⟨groupMed V, groupQ1 V, groupQ3 V, lowerfenceOf V, upperfenceOf V, fliersOf V⟩

/-! ### Definitions: concrete inputs used in examples, witnesses and
counterexamples -/

/-- Aligned sequence of end-to-end example 1. -/
def exA : List Char := "AC-GT".toList

/-- Raw topology string of end-to-end example 1. -/
def exT : List Char := "SSMM".toList

/-- Aligned sequence with one residue. -/
def cA : List Char := ['X']

/-- Topology string with a surplus character. -/
def cT : List Char := ['S', 'S']

/-- The projected topology string of end-to-end example 2. -/
def exMMSS : List Char := "MMM--SS".toList

/-- A single-id header. -/
def hdrT : List Char := ['T']

/-- Header with two ids in alphabetical order. -/
def hdrAB : List Char := "A|B".toList

/-- The same header with the ids swapped. -/
def hdrBA : List Char := "B|A".toList

/-- The expression values of end-to-end example 3. -/
def exV : List (Option ℚ) :=
  [some 1, some 2, some 3, some 4, some 5, some 100]

/-- An expression group containing a `NaN` sample. -/
def exVnan : List (Option ℚ) := [some 1, none, some 2, some 3]

/-- The same group with the `NaN` sample removed. -/
def exVclean : List (Option ℚ) := [some 1, some 2, some 3]

/-- A one-value expression group. -/
def exV0 : List (Option ℚ) := [some 0]

/-- Three transcripts, two of which share one protein sequence
(end-to-end example 4). -/
def exPs : List (List Char × List Char) :=
  [("A".toList, "QQ".toList), ("B".toList, "QQ".toList), ("C".toList, "WW".toList)]

/-- One enumeration order of the set of distinct sequences of `exPs`. -/
def exSeqs : List (List Char) := ["WW".toList, "QQ".toList]

/-! ### Theorems: sorting -/

theorem insertLe_perm {α : Type} (le : α → α → Bool) (x : α) (l : List α) :
    (insertLe le x l).Perm (x :: l) := by
  induction l with
  | nil => simp [insertLe]
  | cons y ys ih =>
      rw [insertLe]
      by_cases h : le x y = true
      · rw [if_pos h]
      · rw [if_neg h]
        exact ((ih.cons y).trans (List.Perm.swap x y ys))

theorem sortLe_perm {α : Type} (le : α → α → Bool) (l : List α) :
    (sortLe le l).Perm l := by
  induction l with
  | nil => simp [sortLe]
  | cons x xs ih =>
      exact (insertLe_perm le x (sortLe le xs)).trans (ih.cons x)

theorem length_sortLe {α : Type} (le : α → α → Bool) (l : List α) :
    (sortLe le l).length = l.length :=
  (sortLe_perm le l).length_eq

theorem mem_sortLe {α : Type} (le : α → α → Bool) {x : α} {l : List α} :
    x ∈ sortLe le l ↔ x ∈ l :=
  (sortLe_perm le l).mem_iff

theorem insertLe_pairwise {α : Type} (le : α → α → Bool)
    (trans : ∀ a b c, le a b = true → le b c = true → le a c = true)
    (total : ∀ a b, le a b || le b a)
    (x : α) {l : List α} (h : l.Pairwise (fun a b => le a b = true)) :
    (insertLe le x l).Pairwise (fun a b => le a b = true) := by
  induction l with
  | nil => simp [insertLe]
  | cons y ys ih =>
      rcases List.pairwise_cons.mp h with ⟨hy, hys⟩
      rw [insertLe]
      by_cases hxy : le x y = true
      · rw [if_pos hxy]
        refine List.pairwise_cons.mpr ⟨?_, h⟩
        intro b hb
        rcases List.mem_cons.mp hb with rfl | hb
        · exact hxy
        · exact trans _ _ _ hxy (hy _ hb)
      · rw [if_neg hxy]
        refine List.pairwise_cons.mpr ⟨?_, ih hys⟩
        intro b hb
        have hmem := (insertLe_perm le x ys).mem_iff.mp hb
        rcases List.mem_cons.mp hmem with rfl | hb
        · have ht := total y b
          cases h' : le y b
          · rw [h'] at ht
            simp only [Bool.false_or] at ht
            exact absurd ht hxy
          · rfl
        · exact hy _ hb

theorem sortLe_pairwise {α : Type} (le : α → α → Bool)
    (trans : ∀ a b c, le a b = true → le b c = true → le a c = true)
    (total : ∀ a b, le a b || le b a) (l : List α) :
    (sortLe le l).Pairwise (fun a b => le a b = true) := by
  induction l with
  | nil => simp [sortLe]
  | cons x xs ih => exact insertLe_pairwise le trans total x ih

/-! ### Theorems: the lexicographic order -/

theorem lexLe_total (x y : List Char) : lexLe x y || lexLe y x := by
  induction x generalizing y with
  | nil => simp [lexLe]
  | cons a as ih =>
      cases y with
      | nil => simp [lexLe]
      | cons b bs =>
          rcases lt_trichotomy a b with h | h | h
          · simp [lexLe, h]
          · subst h
            simpa [lexLe, lt_irrefl] using ih bs
          · simp [lexLe, h, lt_asymm h]

theorem lexLe_trans {x y z : List Char} (hxy : lexLe x y = true)
    (hyz : lexLe y z = true) : lexLe x z = true := by
  induction x generalizing y z with
  | nil => simp [lexLe]
  | cons a as ih =>
      cases y with
      | nil => simp [lexLe] at hxy
      | cons b bs =>
          cases z with
          | nil => simp [lexLe] at hyz
          | cons c cs =>
              simp only [lexLe] at hxy hyz ⊢
              by_cases hab : a < b
              · by_cases hbc : b < c
                · simp [lt_trans hab hbc]
                · by_cases hcb : c < b
                  · simp [hbc, hcb] at hyz
                  · have hbc' : b = c := le_antisymm (not_lt.mp hcb) (not_lt.mp hbc)
                    subst hbc'
                    simp [hab]
              · by_cases hba : b < a
                · simp [hab, hba] at hxy
                · have hab' : a = b := le_antisymm (not_lt.mp hba) (not_lt.mp hab)
                  subst hab'
                  simp only [hab, if_neg, lt_irrefl, if_false] at hxy
                  by_cases hac : a < c
                  · simp [hac]
                  · by_cases hca : c < a
                    · simp [hac, hca] at hyz
                    · simp only [hac, hca, if_false] at hyz ⊢
                      exact ih hxy hyz

theorem lexLe_antisymm {x y : List Char} (hxy : lexLe x y = true)
    (hyx : lexLe y x = true) : x = y := by
  induction x generalizing y with
  | nil =>
      cases y with
      | nil => rfl
      | cons b bs => simp [lexLe] at hyx
  | cons a as ih =>
      cases y with
      | nil => simp [lexLe] at hxy
      | cons b bs =>
          simp only [lexLe] at hxy hyx
          by_cases h : a < b
          · simp [h, lt_asymm h] at hyx
          · by_cases h' : b < a
            · simp [h, h'] at hxy
            · have hab : a = b := le_antisymm (not_lt.mp h') (not_lt.mp h)
              subst hab
              simp only [lt_irrefl, if_false] at hxy hyx
              exact congrArg (a :: ·) (ih hxy hyx)

/-! ### Theorems: injectivity of `Nat.repr` -/

theorem toDigitsCore_eq_clean :
    ∀ (fuel n : Nat) (ds : List Char), n < fuel →
      Nat.toDigitsCore 10 fuel n ds = toDigitsClean n ++ ds := by
  intro fuel
  induction fuel with
  | zero => intro n ds h; omega
  | succ fuel ih =>
      intro n ds h
      rw [Nat.toDigitsCore]
      by_cases h10 : n / 10 = 0
      · have hn : n < 10 := by omega
        rw [toDigitsClean]
        simp [h10, hn, Nat.mod_eq_of_lt hn]
      · have hn : ¬ n < 10 := by omega
        rw [toDigitsClean]
        simp only [hn, dite_false]
        have hfuel : n / 10 < fuel := by
          have := Nat.div_lt_self (by omega : 0 < n) (by omega : 1 < 10)
          omega
        simp only [h10, if_false]
        rw [ih (n / 10) _ hfuel]
        simp

theorem toDigits_eq_clean (n : Nat) : Nat.toDigits 10 n = toDigitsClean n := by
  have := toDigitsCore_eq_clean (n + 1) n [] (by omega)
  simpa [Nat.toDigits] using this

theorem digitChar_toNat : ∀ k, k < 10 → (Nat.digitChar k).toNat = 48 + k := by
  decide

theorem digitsVal_toDigitsClean (n : Nat) : digitsVal (toDigitsClean n) = n := by
  induction n using Nat.strong_induction_on with
  | _ n ih =>
      rw [toDigitsClean]
      by_cases h : n < 10
      · simp [h, digitsVal, digitChar_toNat n h]
      · simp only [h, dite_false]
        have hdiv : n / 10 < n := Nat.div_lt_self (by omega) (by omega)
        have hmod : n % 10 < 10 := Nat.mod_lt _ (by omega)
        have := ih (n / 10) hdiv
        simp only [digitsVal] at this ⊢
        rw [List.foldl_append, this]
        simp [digitChar_toNat _ hmod]
        omega

theorem natRepr_injective {m n : Nat} (h : Nat.repr m = Nat.repr n) : m = n := by
  have hdata : (Nat.repr m).data = (Nat.repr n).data := congrArg String.data h
  have hdig : Nat.toDigits 10 m = Nat.toDigits 10 n := by
    simpa [Nat.repr, List.asString] using hdata
  have hclean : toDigitsClean m = toDigitsClean n := by
    rw [← toDigits_eq_clean, ← toDigits_eq_clean]; exact hdig
  have := congrArg digitsVal hclean
  rwa [digitsVal_toDigitsClean, digitsVal_toDigitsClean] at this

theorem isoformName_injective {m n : Nat} (h : isoformName m = isoformName n) :
    m = n := by
  have hdata := congrArg String.data h
  simp only [isoformName, String.data_append] at hdata
  have := List.append_cancel_left hdata
  exact natRepr_injective (String.ext this)

/-! ### Theorems: the projection walk -/

theorem countNonGap_cons_gap (A : List Char) :
    countNonGap ('-' :: A) = countNonGap A := by
  simp [countNonGap]

theorem countNonGap_cons_nongap {c : Char} (hc : c ≠ '-') (A : List Char) :
    countNonGap (c :: A) = countNonGap A + 1 := by
  simp [countNonGap, hc]

/-- C1. When the non-gap count of the aligned sequence equals the length of
the raw topology string and the topology string is gap-free, the projection
walk succeeds and produces a string of the alignment's length, with gaps at
exactly the alignment's gap positions, whose gap-stripped form is the raw
topology string. -/
theorem C1_alignment_projection (A T : List Char)
    (hlen : countNonGap A = T.length) (hgap : '-' ∉ T) :
    ∃ P, project A T = some P ∧ P.length = A.length ∧
      (∀ i, i < A.length → (P.getD i 'A' = '-' ↔ A.getD i 'A' = '-')) ∧
      stripGaps P = T := by
  induction A generalizing T with
  | nil =>
      have hT : T = [] := by
        have h0 : (0 : Nat) = T.length := by simpa [countNonGap] using hlen
        exact List.eq_nil_of_length_eq_zero h0.symm
      subst hT
      exact ⟨[], rfl, rfl, by intro i hi; simp at hi, rfl⟩
  | cons c A ih =>
      by_cases hc : c = '-'
      · subst hc
        have hlen' : countNonGap A = T.length := by
          rwa [countNonGap_cons_gap] at hlen
        obtain ⟨P, hP, hPlen, hPidx, hPstrip⟩ := ih T hlen' hgap
        refine ⟨'-' :: P, ?_, by simp [hPlen], ?_, ?_⟩
        · simp [project, hP]
        · intro i hi
          cases i with
          | zero => simp
          | succ i =>
              simp only [List.getD_cons_succ]
              exact hPidx i (by simpa using hi)
        · simpa [stripGaps] using hPstrip
      · cases T with
        | nil =>
            exfalso
            rw [countNonGap_cons_nongap hc] at hlen
            simp at hlen
        | cons t T' =>
            have ht : t ≠ '-' := fun h => hgap (h ▸ List.mem_cons_self t T')
            have hgap' : '-' ∉ T' := fun h => hgap (List.mem_cons_of_mem t h)
            have hlen' : countNonGap A = T'.length := by
              rw [countNonGap_cons_nongap hc] at hlen
              simpa using hlen
            obtain ⟨P, hP, hPlen, hPidx, hPstrip⟩ := ih T' hlen' hgap'
            refine ⟨t :: P, ?_, by simp [hPlen], ?_, ?_⟩
            · simp [project, hc, hP]
            · intro i hi
              cases i with
              | zero => simp [ht, hc]
              | succ i =>
                  simp only [List.getD_cons_succ]
                  exact hPidx i (by simpa using hi)
            · simp only [stripGaps] at hPstrip ⊢
              simp [ht, hPstrip]

/-- Witness for C1 at end-to-end example 1 (`A = "AC-GT"`, `T = "SSMM"`). -/
theorem C1_alignment_projection_witness :
    countNonGap exA = exT.length ∧ '-' ∉ exT ∧
      (∃ P, project exA exT = some P ∧ P.length = exA.length ∧
        (∀ i, i < exA.length → (P.getD i 'A' = '-' ↔ exA.getD i 'A' = '-')) ∧
        stripGaps P = exT) :=
  ⟨by decide, by decide, C1_alignment_projection exA exT (by decide) (by decide)⟩

theorem project_isSome_iff (A T : List Char) :
    (project A T).isSome ↔ countNonGap A ≤ T.length := by
  induction A generalizing T with
  | nil => simp [project, countNonGap]
  | cons c A ih =>
      by_cases hc : c = '-'
      · subst hc
        rw [countNonGap_cons_gap]
        simpa [project] using ih T
      · rw [countNonGap_cons_nongap hc]
        cases T with
        | nil => simp [project, hc]
        | cons t T' =>
            simp only [project, if_neg hc, Option.isSome_map', List.length_cons,
              Nat.add_le_add_iff_right]
            exact ih T'

theorem project_take (A T : List Char) :
    project A T = project A (T.take (countNonGap A)) := by
  induction A generalizing T with
  | nil => simp [project]
  | cons c A ih =>
      by_cases hc : c = '-'
      · subst hc
        rw [countNonGap_cons_gap]
        show (project A T).map (fun P => '-' :: P) =
          (project A (T.take (countNonGap A))).map (fun P => '-' :: P)
        rw [ih T]
      · rw [countNonGap_cons_nongap hc]
        cases T with
        | nil => simp [project, hc]
        | cons t T' =>
            simp only [project, if_neg hc, List.take_succ_cons]
            rw [ih T']

/-- C2 counterexample: with one non-gap residue and a two-character topology
string the non-gap count differs from the topology length, yet the
projection walk succeeds (returning the projection of the truncated
topology) instead of failing. -/
theorem C2_counterexample :
    countNonGap cA ≠ cT.length ∧ project cA cT = some ['S'] := by
  constructor
  · decide
  · decide

/-- C2 amended: the walk raises an exception (an `IndexError`, modelled by
`none`) exactly when the non-gap count of `A` exceeds `len(T)`; when
`len(T)` is larger the walk completes normally using only the first
`count_nongap(A)` characters of `T`, silently ignoring the surplus. No
`LengthMismatchError` (and no check of the final cursor) exists in the
code. -/
theorem C2_length_mismatch_amended (A T : List Char) :
    ((project A T).isSome ↔ countNonGap A ≤ T.length) ∧
      project A T = project A (T.take (countNonGap A)) :=
  ⟨project_isSome_iff A T, project_take A T⟩

/-! ### Theorems: the segment encoder -/

theorem decodeRuns_cons (r : Char × Nat × Nat) (rest : List (Char × Nat × Nat)) :
    decodeRuns (r :: rest) = List.replicate r.2.2 r.1 ++ decodeRuns rest := by
  simp [decodeRuns]

theorem rleAux_decode (P : List Char) :
    ∀ (pos s : Nat) (c : Char), s ≤ pos →
      decodeRuns (rleAux P pos (some (c, s))) = List.replicate (pos - s) c ++ P := by
  induction P with
  | nil =>
      intro pos s c hs
      simp [rleAux, decodeRuns]
  | cons ch rest ih =>
      intro pos s c hs
      rw [rleAux]
      by_cases hch : ch = c
      · subst hch
        rw [if_pos rfl, ih (pos + 1) s ch (by omega)]
        have : pos + 1 - s = (pos - s) + 1 := by omega
        rw [this, List.replicate_succ']
        simp
      · rw [if_neg hch, decodeRuns_cons, ih (pos + 1) pos ch (by omega)]
        simp

theorem decode_encodeRuns (P : List Char) : decodeRuns (encodeRuns P) = P := by
  cases P with
  | nil => rfl
  | cons ch rest =>
      show decodeRuns (rleAux rest 1 (some (ch, 0))) = ch :: rest
      rw [rleAux_decode rest 1 0 ch (by omega)]
      simp

theorem rleAux_tiles (P : List Char) :
    ∀ (pos s : Nat) (c : Char), s < pos →
      Tiles s (rleAux P pos (some (c, s))) (pos + P.length) := by
  induction P with
  | nil =>
      intro pos s c hs
      simp only [rleAux, List.length_nil, Nat.add_zero]
      refine ⟨rfl, ?_, ?_⟩
      · show 0 < pos - s
        omega
      · show Tiles (s + (pos - s)) [] pos
        show s + (pos - s) = pos
        omega
  | cons ch rest ih =>
      intro pos s c hs
      rw [rleAux]
      by_cases hch : ch = c
      · subst hch
        rw [if_pos rfl]
        have := ih (pos + 1) s ch (by omega)
        simpa [Nat.add_comm, Nat.add_assoc, Nat.add_left_comm] using this
      · rw [if_neg hch]
        refine ⟨rfl, ?_, ?_⟩
        · show 0 < pos - s
          omega
        · show Tiles (s + (pos - s)) (rleAux rest (pos + 1) (some (ch, pos)))
            (pos + (ch :: rest).length)
          have harith : s + (pos - s) = pos := by omega
          rw [harith]
          have hgoal := ih (pos + 1) pos ch (by omega)
          have hlen : pos + (ch :: rest).length = pos + 1 + rest.length := by
            simp [List.length_cons]
            omega
          rw [hlen]
          exact hgoal

theorem encodeRuns_tiles (P : List Char) : Tiles 0 (encodeRuns P) P.length := by
  cases P with
  | nil => exact rfl
  | cons ch rest =>
      show Tiles 0 (rleAux rest 1 (some (ch, 0))) (rest.length + 1)
      have := rleAux_tiles rest 1 0 ch (by omega)
      simpa [Nat.add_comm] using this

theorem tiles_start_le {L : List (Char × Nat × Nat)} :
    ∀ {a b : Nat}, Tiles a L b → ∀ r ∈ L, a ≤ r.2.1 := by
  induction L with
  | nil => intro a b _ r hr; simp at hr
  | cons u rest ih =>
      intro a b ht r hr
      obtain ⟨hu, hw, hrest⟩ := ht
      rcases List.mem_cons.mp hr with rfl | hr
      · omega
      · have := ih hrest r hr
        omega

theorem tiles_width_pos {L : List (Char × Nat × Nat)} :
    ∀ {a b : Nat}, Tiles a L b → ∀ r ∈ L, 0 < r.2.2 := by
  induction L with
  | nil => intro a b _ r hr; simp at hr
  | cons u rest ih =>
      intro a b ht r hr
      obtain ⟨hu, hw, hrest⟩ := ht
      rcases List.mem_cons.mp hr with rfl | hr
      · exact hw
      · exact ih hrest r hr

theorem tiles_pairwise {L : List (Char × Nat × Nat)} :
    ∀ {a b : Nat}, Tiles a L b →
      L.Pairwise (fun u v => u.2.1 + u.2.2 ≤ v.2.1) := by
  induction L with
  | nil => intro a b _; exact List.Pairwise.nil
  | cons u rest ih =>
      intro a b ht
      obtain ⟨hu, hw, hrest⟩ := ht
      refine List.pairwise_cons.mpr ⟨?_, ih hrest⟩
      intro v hv
      have := tiles_start_le hrest v hv
      omega

/-- C3. The segment encoder: materializing the runs reconstructs the input
exactly; the runs tile `[0, len P)` with positive widths, no gaps and no
overlaps; per label the `(start, width)` pairs are ordered and disjoint;
and `"MMM--SS"` yields exactly the segment map of end-to-end example 2. -/
theorem C3_segment_encoder (P : List Char) :
    decodeRuns (encodeRuns P) = P ∧
    Tiles 0 (encodeRuns P) P.length ∧
    (∀ c : Char, ∀ sw ∈ seqData P c, 0 < sw.2) ∧
    (∀ c : Char, (seqData P c).Pairwise (fun u v => u.1 + u.2 ≤ v.1)) ∧
    seqData exMMSS 'M' = [(0, 3)] ∧
    seqData exMMSS '-' = [(3, 2)] ∧
    seqData exMMSS 'S' = [(5, 2)] := by
  refine ⟨decode_encodeRuns P, encodeRuns_tiles P, ?_, ?_, by decide, by decide, by decide⟩
  · intro c sw hsw
    obtain ⟨r, hr, hrsw⟩ := List.mem_map.mp hsw
    have hrE : r ∈ encodeRuns P := List.mem_of_mem_filter hr
    have hpos := tiles_width_pos (encodeRuns_tiles P) r hrE
    exact hrsw ▸ hpos
  · intro c
    have hglobal := tiles_pairwise (encodeRuns_tiles P)
    have hfilter : ((encodeRuns P).filter (fun r => r.1 == c)).Pairwise
        (fun u v => u.2.1 + u.2.2 ≤ v.2.1) :=
      hglobal.sublist (List.filter_sublist _)
    exact List.pairwise_map.mpr (by simpa using hfilter)

/-- Witness for C3 at end-to-end example 2. -/
theorem C3_segment_encoder_witness :
    decodeRuns (encodeRuns exMMSS) = exMMSS :=
  (C3_segment_encoder exMMSS).1

/-! ### Theorems: quantiles -/

theorem qle_trans (a b c : ℚ) (h1 : qle a b = true) (h2 : qle b c = true) :
    qle a c = true := by
  simp only [qle, decide_eq_true_eq] at h1 h2 ⊢
  exact le_trans h1 h2

theorem qle_total (a b : ℚ) : qle a b || qle b a := by
  rcases le_total a b with h | h <;> simp [qle, h]

theorem sortQ_sorted (l : List ℚ) : (sortQ l).Pairwise (fun a b : ℚ => a ≤ b) := by
  have := sortLe_pairwise qle qle_trans qle_total l
  exact this.imp (fun h => by simpa [qle] using h)

theorem sorted_getD_mono {s : List ℚ} (hs : s.Pairwise (fun a b : ℚ => a ≤ b))
    {i j : ℕ} (hij : i ≤ j) (hj : j < s.length) :
    s.getD i 0 ≤ s.getD j 0 := by
  have hi : i < s.length := Nat.lt_of_le_of_lt hij hj
  rw [List.getD_eq_getElem s 0 hi, List.getD_eq_getElem s 0 hj]
  rcases Nat.lt_or_ge i j with h | h
  · exact (List.pairwise_iff_getElem.mp hs) i j hi hj h
  · have hij' : i = j := le_antisymm hij h
    subst hij'
    exact le_refl _

theorem floor_q_mul (a b m : ℕ) :
    ⌊((a : ℚ) / (b : ℚ)) * (m : ℚ)⌋₊ = a * m / b := by
  have h : ((a : ℚ) / (b : ℚ)) * (m : ℚ) = ((a * m : ℕ) : ℚ) / ((b : ℕ) : ℚ) := by
    push_cast
    ring
  rw [h, Nat.floor_div_nat, Nat.floor_natCast]

theorem quantile_pos_cast {n : ℕ} (hn : 1 ≤ n) :
    ((n : ℚ) - 1) = ((n - 1 : ℕ) : ℚ) := by
  rw [Nat.cast_sub hn, Nat.cast_one]

/-- Lower support: every order statistic up to the floor index bounds the
quantile from below. -/
theorem quantile_ge_getD {s : List ℚ} (hs : s.Pairwise (fun a b : ℚ => a ≤ b))
    (hn : 1 ≤ s.length) {q : ℚ} (hq0 : 0 ≤ q) (hq1 : q ≤ 1)
    {j : ℕ} (hj : j ≤ ⌊q * ((s.length : ℚ) - 1)⌋₊) :
    s.getD j 0 ≤ quantileSorted s q := by
  have hm1 : (0 : ℚ) ≤ (s.length : ℚ) - 1 := by
    have : (1 : ℚ) ≤ (s.length : ℚ) := by exact_mod_cast hn
    linarith
  set p : ℚ := q * ((s.length : ℚ) - 1) with hp
  have hp0 : 0 ≤ p := mul_nonneg hq0 hm1
  have hple : p ≤ (s.length : ℚ) - 1 := by
    calc p ≤ 1 * ((s.length : ℚ) - 1) := by
              exact mul_le_mul_of_nonneg_right hq1 hm1
      _ = (s.length : ℚ) - 1 := one_mul _
  set i : ℕ := ⌊p⌋₊ with hi
  have hfl : (i : ℚ) ≤ p := Nat.floor_le hp0
  have hin : i ≤ s.length - 1 := by
    have h2 := Nat.floor_mono (le_trans hple (le_of_eq (quantile_pos_cast hn)))
    rw [Nat.floor_natCast] at h2
    exact h2
  have hilen : i < s.length := by omega
  have hh0 : 0 ≤ p - (i : ℚ) := by linarith
  show s.getD j 0 ≤ s.getD i 0 + (p - (i : ℚ)) * (s.getD (i + 1) 0 - s.getD i 0)
  have hji : s.getD j 0 ≤ s.getD i 0 := sorted_getD_mono hs hj hilen
  by_cases hnext : i + 1 < s.length
  · have hdelta : 0 ≤ s.getD (i + 1) 0 - s.getD i 0 := by
      have := sorted_getD_mono hs (Nat.le_succ i) hnext
      linarith
    nlinarith
  · have hieq : i = s.length - 1 := by omega
    have hcast : (i : ℚ) = (s.length : ℚ) - 1 := by
      rw [hieq, quantile_pos_cast hn]
    have hh0' : p - (i : ℚ) ≤ 0 := by
      rw [hcast]; linarith
    have hz : p - (i : ℚ) = 0 := le_antisymm hh0' hh0
    rw [hz, zero_mul, add_zero]
    exact hji

/-- Upper support: an order statistic at or above the quantile position
bounds the quantile from above. -/
theorem quantile_le_getD {s : List ℚ} (hs : s.Pairwise (fun a b : ℚ => a ≤ b))
    (hn : 1 ≤ s.length) {q : ℚ} (hq0 : 0 ≤ q)
    {j : ℕ} (hpj : q * ((s.length : ℚ) - 1) ≤ (j : ℚ)) (hjn : j ≤ s.length - 1) :
    quantileSorted s q ≤ s.getD j 0 := by
  have hm1 : (0 : ℚ) ≤ (s.length : ℚ) - 1 := by
    have : (1 : ℚ) ≤ (s.length : ℚ) := by exact_mod_cast hn
    linarith
  set p : ℚ := q * ((s.length : ℚ) - 1) with hp
  have hp0 : 0 ≤ p := mul_nonneg hq0 hm1
  set i : ℕ := ⌊p⌋₊ with hi
  have hfl : (i : ℚ) ≤ p := Nat.floor_le hp0
  have hij : i ≤ j := by
    have h2 := Nat.floor_mono hpj
    rw [Nat.floor_natCast] at h2
    exact h2
  have hjlen : j < s.length := by omega
  show s.getD i 0 + (p - (i : ℚ)) * (s.getD (i + 1) 0 - s.getD i 0) ≤ s.getD j 0
  rcases Nat.lt_or_ge i j with hlt | hge
  · have hnext : i + 1 < s.length := by omega
    have hdelta : 0 ≤ s.getD (i + 1) 0 - s.getD i 0 := by
      have := sorted_getD_mono hs (Nat.le_succ i) hnext
      linarith
    have hh1 : p - (i : ℚ) < 1 := by
      have := Nat.lt_floor_add_one p
      rw [← hi] at this
      push_cast at this
      linarith
    have hstep : s.getD (i + 1) 0 ≤ s.getD j 0 := sorted_getD_mono hs hlt hjlen
    nlinarith
  · have hieq : i = j := le_antisymm hij hge
    have hh0' : p - (i : ℚ) ≤ 0 := by
      rw [hieq]; linarith
    have hh0 : 0 ≤ p - (i : ℚ) := by linarith
    have hz : p - (i : ℚ) = 0 := le_antisymm hh0' hh0
    rw [hz, zero_mul, add_zero, hieq]

/-- Monotonicity of the interpolated quantile in the quantile level. -/
theorem quantile_mono {s : List ℚ} (hs : s.Pairwise (fun a b : ℚ => a ≤ b))
    (hn : 1 ≤ s.length) {q q' : ℚ} (hq0 : 0 ≤ q) (hqq : q ≤ q') (hq1 : q' ≤ 1) :
    quantileSorted s q ≤ quantileSorted s q' := by
  have hm1 : (0 : ℚ) ≤ (s.length : ℚ) - 1 := by
    have : (1 : ℚ) ≤ (s.length : ℚ) := by exact_mod_cast hn
    linarith
  set p : ℚ := q * ((s.length : ℚ) - 1) with hp
  set p' : ℚ := q' * ((s.length : ℚ) - 1) with hp'
  have hpp' : p ≤ p' := mul_le_mul_of_nonneg_right hqq hm1
  have hp0 : 0 ≤ p := mul_nonneg hq0 hm1
  have hp0' : 0 ≤ p' := le_trans hp0 hpp'
  have hple' : p' ≤ (s.length : ℚ) - 1 := by
    calc p' ≤ 1 * ((s.length : ℚ) - 1) := mul_le_mul_of_nonneg_right hq1 hm1
      _ = (s.length : ℚ) - 1 := one_mul _
  set i : ℕ := ⌊p⌋₊ with hi
  set i' : ℕ := ⌊p'⌋₊ with hi'
  have hii' : i ≤ i' := Nat.floor_mono hpp'
  have hin' : i' ≤ s.length - 1 := by
    have h2 := Nat.floor_mono (le_trans hple' (le_of_eq (quantile_pos_cast hn)))
    rw [Nat.floor_natCast] at h2
    exact h2
  rcases Nat.lt_or_ge i i' with hlt | hge
  · have h1 : quantileSorted s q ≤ s.getD i' 0 := by
      apply quantile_le_getD hs hn hq0 _ hin'
      have : (i : ℚ) + 1 ≤ (i' : ℚ) := by exact_mod_cast hlt
      have hfl : p < (i : ℚ) + 1 := by
        have := Nat.lt_floor_add_one p
        rw [← hi] at this
        push_cast at this
        linarith
      rw [← hp]
      linarith
    have h2 : s.getD i' 0 ≤ quantileSorted s q' := by
      apply quantile_ge_getD hs hn (le_trans hq0 hqq) hq1
      exact le_refl _
    exact le_trans h1 h2
  · have hieq : i = i' := le_antisymm hii' hge
    have hh : p - (i : ℚ) ≤ p' - (i' : ℚ) := by
      rw [hieq]; linarith
    have hh0 : 0 ≤ p - (i : ℚ) := by
      have := Nat.floor_le hp0
      rw [← hi] at this
      linarith
    show s.getD i 0 + (p - (i : ℚ)) * (s.getD (i + 1) 0 - s.getD i 0) ≤
      s.getD i' 0 + (p' - (i' : ℚ)) * (s.getD (i' + 1) 0 - s.getD i' 0)
    rw [← hieq]
    by_cases hnext : i + 1 < s.length
    · have hdelta : 0 ≤ s.getD (i + 1) 0 - s.getD i 0 := by
        have := sorted_getD_mono hs (Nat.le_succ i) hnext
        linarith
      nlinarith
    · have hilen : i ≤ s.length - 1 := by
        rw [hieq]; exact hin'
      have hieq2 : i = s.length - 1 := by omega
      have hcast : (i : ℚ) = (s.length : ℚ) - 1 := by
        rw [hieq2, quantile_pos_cast hn]
      have hz : p - (i : ℚ) = 0 := by
        have h1 : p ≤ (i : ℚ) := by rw [hcast]; exact le_trans hpp' hple'
        linarith
      have hz' : p' - (i : ℚ) = 0 := by
        have h1 : p' ≤ (i : ℚ) := by rw [hcast]; exact hple'
        have h2 : (i : ℚ) ≤ p' := by
          rw [hieq]
          exact Nat.floor_le hp0'
        linarith
      rw [hz, hz', zero_mul, add_zero]

theorem quantileSorted_pair (x0 x1 q : ℚ) (h0 : 0 ≤ q) (h1 : q < 1) :
    quantileSorted [x0, x1] q = x0 + q * (x1 - x0) := by
  have hfl : ⌊q * ((([x0, x1] : List ℚ).length : ℚ) - 1)⌋₊ = 0 := by
    rw [Nat.floor_eq_zero]
    have hl2 : (([x0, x1] : List ℚ).length : ℚ) = 2 := by norm_num
    rw [hl2]
    linarith
  show ([x0, x1] : List ℚ).getD ⌊q * ((([x0, x1] : List ℚ).length : ℚ) - 1)⌋₊ 0 +
      (q * ((([x0, x1] : List ℚ).length : ℚ) - 1) -
        ((⌊q * ((([x0, x1] : List ℚ).length : ℚ) - 1)⌋₊ : ℕ) : ℚ)) *
      (([x0, x1] : List ℚ).getD (⌊q * ((([x0, x1] : List ℚ).length : ℚ) - 1)⌋₊ + 1) 0 -
        ([x0, x1] : List ℚ).getD ⌊q * ((([x0, x1] : List ℚ).length : ℚ) - 1)⌋₊ 0) =
      x0 + q * (x1 - x0)
  rw [hfl]
  have hl2 : (([x0, x1] : List ℚ).length : ℚ) = 2 := by norm_num
  rw [hl2]
  norm_num [List.getD]

/-- The pair case of the fence bounds, by direct computation. -/
theorem fence_support_pair (x0 x1 : ℚ) (h01 : x0 ≤ x1) :
    quantileSorted [x0, x1] (1/4)
        - 3/2 * (quantileSorted [x0, x1] (3/4) - quantileSorted [x0, x1] (1/4)) ≤ x0 ∧
    x1 ≤ quantileSorted [x0, x1] (3/4)
        + 3/2 * (quantileSorted [x0, x1] (3/4) - quantileSorted [x0, x1] (1/4)) := by
  rw [quantileSorted_pair x0 x1 (1/4) (by norm_num) (by norm_num),
    quantileSorted_pair x0 x1 (3/4) (by norm_num) (by norm_num)]
  constructor <;> linarith

/-- The two middle order statistics used by the median lie inside the
1.5·IQR limits and bracket the median. -/
theorem fence_support (s : List ℚ) (hs : s.Pairwise (fun a b : ℚ => a ≤ b))
    (hn : 1 ≤ s.length) :
    quantileSorted s (1/4)
        - 3/2 * (quantileSorted s (3/4) - quantileSorted s (1/4))
        ≤ s.getD ((s.length - 1) / 2) 0 ∧
    s.getD ((s.length - 1) / 2) 0 ≤ s.getD (s.length / 2) 0 ∧
    s.getD (s.length / 2) 0
        ≤ quantileSorted s (3/4)
          + 3/2 * (quantileSorted s (3/4) - quantileSorted s (1/4)) ∧
    s.getD ((s.length - 1) / 2) 0 ≤ quantileSorted s (1/2) ∧
    quantileSorted s (1/2) ≤ s.getD (s.length / 2) 0 := by
  have hq13 : quantileSorted s (1/4) ≤ quantileSorted s (3/4) :=
    quantile_mono hs hn (by norm_num) (by norm_num) (by norm_num)
  have hcast : ((s.length : ℚ) - 1) = ((s.length - 1 : ℕ) : ℚ) := quantile_pos_cast hn
  have hmidlen : s.length / 2 ≤ s.length - 1 := by omega
  have hxmxM : s.getD ((s.length - 1) / 2) 0 ≤ s.getD (s.length / 2) 0 :=
    sorted_getD_mono hs (by omega) (by omega)
  have hfl2 : ⌊(1/2 : ℚ) * ((s.length : ℚ) - 1)⌋₊ = 1 * (s.length - 1) / 2 := by
    rw [hcast]
    have hq : (1/2 : ℚ) = ((1 : ℕ) : ℚ) / ((2 : ℕ) : ℚ) := by norm_num
    rw [hq, floor_q_mul]
  have ha : s.getD ((s.length - 1) / 2) 0 ≤ quantileSorted s (1/2) := by
    apply quantile_ge_getD hs hn (by norm_num) (by norm_num)
    rw [hfl2]
    omega
  have hb : quantileSorted s (1/2) ≤ s.getD (s.length / 2) 0 := by
    apply quantile_le_getD hs hn (by norm_num) _ hmidlen
    rw [hcast]
    have h2 : s.length - 1 ≤ 2 * (s.length / 2) := by omega
    have h2' : ((s.length - 1 : ℕ) : ℚ) ≤ 2 * ((s.length / 2 : ℕ) : ℚ) := by
      exact_mod_cast h2
    linarith
  have hc : quantileSorted s (1/4)
      - 3/2 * (quantileSorted s (3/4) - quantileSorted s (1/4))
      ≤ s.getD ((s.length - 1) / 2) 0 := by
    by_cases hpair : s.length = 2
    · rcases s with - | ⟨x0, - | ⟨x1, - | ⟨y, t3⟩⟩⟩
      · simp at hpair
      · simp at hpair
      · have h01 : x0 ≤ x1 := by
          have := List.pairwise_cons.mp hs
          exact this.1 x1 (by simp)
        have := (fence_support_pair x0 x1 h01).1
        simpa using this
      · simp at hpair
    · have hq1x : quantileSorted s (1/4) ≤ s.getD ((s.length - 1) / 2) 0 := by
        apply quantile_le_getD hs hn (by norm_num) _ (by omega)
        rw [hcast]
        have h4 : s.length - 1 ≤ 4 * ((s.length - 1) / 2) := by omega
        have h4' : ((s.length - 1 : ℕ) : ℚ) ≤ 4 * (((s.length - 1) / 2 : ℕ) : ℚ) := by
          exact_mod_cast h4
        linarith
      linarith
  have hf : s.getD (s.length / 2) 0
      ≤ quantileSorted s (3/4)
        + 3/2 * (quantileSorted s (3/4) - quantileSorted s (1/4)) := by
    by_cases hpair : s.length = 2
    · rcases s with - | ⟨x0, - | ⟨x1, - | ⟨y, t3⟩⟩⟩
      · simp at hpair
      · simp at hpair
      · have h01 : x0 ≤ x1 := by
          have := List.pairwise_cons.mp hs
          exact this.1 x1 (by simp)
        have := (fence_support_pair x0 x1 h01).2
        simpa using this
      · simp at hpair
    · have hfl34 : ⌊(3/4 : ℚ) * ((s.length : ℚ) - 1)⌋₊ = 3 * (s.length - 1) / 4 := by
        rw [hcast]
        have hq : (3/4 : ℚ) = ((3 : ℕ) : ℚ) / ((4 : ℕ) : ℚ) := by norm_num
        rw [hq, floor_q_mul]
      have hq3x : s.getD (s.length / 2) 0 ≤ quantileSorted s (3/4) := by
        apply quantile_ge_getD hs hn (by norm_num) (by norm_num)
        rw [hfl34]
        omega
      linarith
  exact ⟨hc, hxmxM, hf, ha, hb⟩

/-! ### Theorems: boxplot statistics -/

theorem seriesFilter_filterMap (V : List (Option ℚ)) (pred : ℚ → Bool) :
    (seriesFilter V pred).filterMap id = (V.filterMap id).filter pred := by
  induction V with
  | nil => rfl
  | cons ov rest ih =>
      cases ov with
      | none => simpa [seriesFilter] using ih
      | some v =>
          by_cases hv : pred v = true
          · simp [seriesFilter, hv] at ih ⊢
            exact ih
          · simp [seriesFilter, hv] at ih ⊢
            exact ih

theorem mem_filterMap_id {V : List (Option ℚ)} {v : ℚ} :
    v ∈ V.filterMap id ↔ some v ∈ V := by
  simp [List.mem_filterMap]

/-- C6. For every group with at least one numeric value, the fences of
`get_boxplot_stats` bracket the median, every flier is strictly outside
the fences, and every non-flier group value lies inside them. -/
theorem C6_expression_fences (V : List (Option ℚ)) (hne : V.filterMap id ≠ []) :
    (getBoxplotStats V).lowerfence ≤ (getBoxplotStats V).med ∧
    (getBoxplotStats V).med ≤ (getBoxplotStats V).upperfence ∧
    (∀ v ∈ (getBoxplotStats V).fliers,
        v < (getBoxplotStats V).lowerfence ∨ (getBoxplotStats V).upperfence < v) ∧
    (∀ v ∈ V.filterMap id, v ∉ (getBoxplotStats V).fliers →
        (getBoxplotStats V).lowerfence ≤ v ∧ v ≤ (getBoxplotStats V).upperfence) := by
  have hsorted := sortQ_sorted (V.filterMap id)
  have hlen : (sortQ (V.filterMap id)).length = (V.filterMap id).length :=
    length_sortLe _ _
  have hpos : 0 < (V.filterMap id).length := List.length_pos.mpr hne
  have hn : 1 ≤ (sortQ (V.filterMap id)).length := by omega
  obtain ⟨hc, hmm, hf, ha, hb⟩ := fence_support (sortQ (V.filterMap id)) hsorted hn
  have hq1 : groupQ1 V = quantileSorted (sortQ (V.filterMap id)) (1/4) := rfl
  have hq3 : groupQ3 V = quantileSorted (sortQ (V.filterMap id)) (3/4) := rfl
  have hmed : groupMed V = quantileSorted (sortQ (V.filterMap id)) (1/2) := rfl
  have hlowxm : lowLimit V ≤
      (sortQ (V.filterMap id)).getD (((sortQ (V.filterMap id)).length - 1) / 2) 0 := by
    simp only [lowLimit, iqrOf]
    rw [hq1, hq3]
    exact hc
  have hxMhigh :
      (sortQ (V.filterMap id)).getD ((sortQ (V.filterMap id)).length / 2) 0
        ≤ highLimit V := by
    simp only [highLimit, iqrOf]
    rw [hq1, hq3]
    exact hf
  have hxmmed :
      (sortQ (V.filterMap id)).getD (((sortQ (V.filterMap id)).length - 1) / 2) 0
        ≤ groupMed V := by
    rw [hmed]; exact ha
  have hmedxM : groupMed V ≤
      (sortQ (V.filterMap id)).getD ((sortQ (V.filterMap id)).length / 2) 0 := by
    rw [hmed]; exact hb
  have hlowxM : lowLimit V ≤
      (sortQ (V.filterMap id)).getD ((sortQ (V.filterMap id)).length / 2) 0 :=
    le_trans hlowxm hmm
  have hxmhigh :
      (sortQ (V.filterMap id)).getD (((sortQ (V.filterMap id)).length - 1) / 2) 0
        ≤ highLimit V :=
    le_trans hmm hxMhigh
  have hjlo_len : ((sortQ (V.filterMap id)).length - 1) / 2 < (sortQ (V.filterMap id)).length := by
    omega
  have hjhi_len : (sortQ (V.filterMap id)).length / 2 < (sortQ (V.filterMap id)).length := by
    omega
  have hxm_mem :
      (sortQ (V.filterMap id)).getD (((sortQ (V.filterMap id)).length - 1) / 2) 0
        ∈ V.filterMap id := by
    rw [List.getD_eq_getElem _ 0 hjlo_len]
    exact (sortLe_perm _ _).mem_iff.mp (List.getElem_mem hjlo_len)
  have hxM_mem :
      (sortQ (V.filterMap id)).getD ((sortQ (V.filterMap id)).length / 2) 0
        ∈ V.filterMap id := by
    rw [List.getD_eq_getElem _ 0 hjhi_len]
    exact (sortLe_perm _ _).mem_iff.mp (List.getElem_mem hjhi_len)
  have hinside : (insideData V).filterMap id =
      (V.filterMap id).filter (fun v => qle (lowLimit V) v && qle v (highLimit V)) :=
    seriesFilter_filterMap V _
  have hxm_in :
      (sortQ (V.filterMap id)).getD (((sortQ (V.filterMap id)).length - 1) / 2) 0
        ∈ (insideData V).filterMap id := by
    rw [hinside, List.mem_filter]
    refine ⟨hxm_mem, ?_⟩
    simp only [qle, Bool.and_eq_true, decide_eq_true_eq]
    exact ⟨hlowxm, hxmhigh⟩
  have hxM_in :
      (sortQ (V.filterMap id)).getD ((sortQ (V.filterMap id)).length / 2) 0
        ∈ (insideData V).filterMap id := by
    rw [hinside, List.mem_filter]
    refine ⟨hxM_mem, ?_⟩
    simp only [qle, Bool.and_eq_true, decide_eq_true_eq]
    exact ⟨hlowxM, hxMhigh⟩
  obtain ⟨mn, hmn⟩ : ∃ mn, ((insideData V).filterMap id).min? = some mn := by
    cases h : ((insideData V).filterMap id).min? with
    | none =>
        rw [List.min?_eq_none_iff] at h
        rw [h] at hxm_in
        simp at hxm_in
    | some mn => exact ⟨mn, rfl⟩
  obtain ⟨mx, hmx⟩ : ∃ mx, ((insideData V).filterMap id).max? = some mx := by
    cases h : ((insideData V).filterMap id).max? with
    | none =>
        rw [List.max?_eq_none_iff] at h
        rw [h] at hxm_in
        simp at hxm_in
    | some mx => exact ⟨mx, rfl⟩
  have hlf : (getBoxplotStats V).lowerfence = mn := by
    simp [getBoxplotStats, lowerfenceOf, seriesMin, hmn]
  have huf : (getBoxplotStats V).upperfence = mx := by
    simp [getBoxplotStats, upperfenceOf, seriesMax, hmx]
  have hmn_le : ∀ b ∈ (insideData V).filterMap id, mn ≤ b :=
    (List.le_min?_iff (fun a b c => le_min_iff) hmn).mp (le_refl mn)
  have hmx_ge : ∀ b ∈ (insideData V).filterMap id, b ≤ mx :=
    (List.max?_le_iff (fun a b c => max_le_iff) hmx).mp (le_refl mx)
  have hmed1 : (getBoxplotStats V).lowerfence ≤ (getBoxplotStats V).med := by
    rw [hlf]
    have h1 := hmn_le _ hxm_in
    have h2 : (getBoxplotStats V).med = groupMed V := rfl
    rw [h2]
    exact le_trans h1 hxmmed
  have hmed2 : (getBoxplotStats V).med ≤ (getBoxplotStats V).upperfence := by
    rw [huf]
    have h1 := hmx_ge _ hxM_in
    have h2 : (getBoxplotStats V).med = groupMed V := rfl
    rw [h2]
    exact le_trans hmedxM h1
  have hfliers : (getBoxplotStats V).fliers =
      (V.filterMap id).filter
        (fun v => decide (v < lowerfenceOf V) || decide (v > upperfenceOf V)) := by
    simp only [getBoxplotStats, fliersOf]
    exact seriesFilter_filterMap V _
  have hlf' : lowerfenceOf V = (getBoxplotStats V).lowerfence := rfl
  have huf' : upperfenceOf V = (getBoxplotStats V).upperfence := rfl
  refine ⟨hmed1, hmed2, ?_, ?_⟩
  · intro v hv
    rw [hfliers, List.mem_filter] at hv
    rcases hv with ⟨-, hv⟩
    rw [hlf', huf'] at hv
    simpa using hv
  · intro v hv hnot
    rw [hfliers, List.mem_filter] at hnot
    push_neg at hnot
    have h2 := hnot hv
    rw [hlf', huf'] at h2
    constructor
    · by_contra hlt
      apply h2
      simp [not_le.mp hlt]
    · by_contra hgt
      apply h2
      simp [not_le.mp hgt]

/-- Witness for C6 at the one-value group `[0]`. -/
theorem C6_expression_fences_witness :
    exV0.filterMap id ≠ [] ∧
      ((getBoxplotStats exV0).lowerfence ≤ (getBoxplotStats exV0).med ∧
       (getBoxplotStats exV0).med ≤ (getBoxplotStats exV0).upperfence ∧
       (∀ v ∈ (getBoxplotStats exV0).fliers,
           v < (getBoxplotStats exV0).lowerfence ∨ (getBoxplotStats exV0).upperfence < v) ∧
       (∀ v ∈ exV0.filterMap id, v ∉ (getBoxplotStats exV0).fliers →
           (getBoxplotStats exV0).lowerfence ≤ v ∧ v ≤ (getBoxplotStats exV0).upperfence)) :=
  ⟨by simp [exV0], C6_expression_fences exV0 (by simp [exV0])⟩

theorem sortQ_exV : sortQ (exV.filterMap id) = [1, 2, 3, 4, 5, 100] := by
  decide

theorem exV_q1 : groupQ1 exV = 9/4 := by
  have h : groupQ1 exV = quantileSorted (sortQ (exV.filterMap id)) (1/4) := rfl
  rw [h, sortQ_exV]
  have hfl : ⌊(1/4 : ℚ) * ((([1, 2, 3, 4, 5, 100] : List ℚ).length : ℚ) - 1)⌋₊ = 1 := by
    rw [Nat.floor_eq_iff (by norm_num)]
    constructor <;> norm_num
  simp only [quantileSorted, hfl]
  norm_num [List.getD]

theorem exV_q3 : groupQ3 exV = 19/4 := by
  have h : groupQ3 exV = quantileSorted (sortQ (exV.filterMap id)) (3/4) := rfl
  rw [h, sortQ_exV]
  have hfl : ⌊(3/4 : ℚ) * ((([1, 2, 3, 4, 5, 100] : List ℚ).length : ℚ) - 1)⌋₊ = 3 := by
    rw [Nat.floor_eq_iff (by norm_num)]
    constructor <;> norm_num
  simp only [quantileSorted, hfl]
  norm_num [List.getD]

theorem exV_iqr : iqrOf exV = 5/2 := by
  rw [iqrOf, exV_q1, exV_q3]
  norm_num

theorem exV_low : lowLimit exV = -(3/2) := by
  rw [lowLimit, exV_q1, exV_iqr]
  norm_num

theorem exV_high : highLimit exV = 17/2 := by
  rw [highLimit, exV_q3, exV_iqr]
  norm_num

theorem exV_inside : insideData exV = [some 1, some 2, some 3, some 4, some 5] := by
  simp only [insideData, exV_low, exV_high]
  norm_num [seriesFilter, exV, qle, List.filter]

theorem exV_lowerfence : lowerfenceOf exV = 1 := by
  simp only [lowerfenceOf, seriesMin, exV_inside]
  decide

theorem exV_upperfence : upperfenceOf exV = 5 := by
  simp only [upperfenceOf, seriesMax, exV_inside]
  decide

theorem exV_fliers : fliersOf exV = [100] := by
  simp only [fliersOf, exV_lowerfence, exV_upperfence]
  decide

/-- C7. `get_boxplot_stats` on the group `[1,2,3,4,5,100]` produces exactly
`q1 = 2.25`, `q3 = 4.75`, `iqr = 2.5`, `low_limit = -1.5`,
`high_limit = 8.5`, `lowerfence = 1`, `upperfence = 5`, `fliers = [100]`. -/
theorem C7_boxplot_concrete :
    (getBoxplotStats exV).q1 = 9/4 ∧
    (getBoxplotStats exV).q3 = 19/4 ∧
    iqrOf exV = 5/2 ∧
    lowLimit exV = -(3/2) ∧
    highLimit exV = 17/2 ∧
    (getBoxplotStats exV).lowerfence = 1 ∧
    (getBoxplotStats exV).upperfence = 5 ∧
    (getBoxplotStats exV).fliers = [100] :=
  ⟨exV_q1, exV_q3, exV_iqr, exV_low, exV_high, exV_lowerfence, exV_upperfence, exV_fliers⟩

theorem filterMap_map_some (l : List ℚ) : (l.map some).filterMap id = l := by
  induction l with
  | nil => rfl
  | cons x xs ih => simp_all

theorem getBoxplotStats_skipna (V : List (Option ℚ)) :
    getBoxplotStats V = getBoxplotStats ((V.filterMap id).map some) := by
  have hclean : ((V.filterMap id).map some).filterMap id = V.filterMap id :=
    filterMap_map_some _
  have hq : ∀ q, seriesQuantile ((V.filterMap id).map some) q = seriesQuantile V q := by
    intro q
    simp only [seriesQuantile, hclean]
  have hmed : groupMed ((V.filterMap id).map some) = groupMed V := hq _
  have hq1 : groupQ1 ((V.filterMap id).map some) = groupQ1 V := hq _
  have hq3 : groupQ3 ((V.filterMap id).map some) = groupQ3 V := hq _
  have hiqr : iqrOf ((V.filterMap id).map some) = iqrOf V := by
    simp only [iqrOf, hq1, hq3]
  have hlow : lowLimit ((V.filterMap id).map some) = lowLimit V := by
    simp only [lowLimit, hq1, hiqr]
  have hhigh : highLimit ((V.filterMap id).map some) = highLimit V := by
    simp only [highLimit, hq3, hiqr]
  have hins : (insideData ((V.filterMap id).map some)).filterMap id =
      (insideData V).filterMap id := by
    simp only [insideData, seriesFilter_filterMap, hclean, hlow, hhigh]
  have hlfv : lowerfenceOf ((V.filterMap id).map some) = lowerfenceOf V := by
    simp only [lowerfenceOf, seriesMin, hins, hq1]
  have hufv : upperfenceOf ((V.filterMap id).map some) = upperfenceOf V := by
    simp only [upperfenceOf, seriesMax, hins, hq3]
  have hflv : fliersOf ((V.filterMap id).map some) = fliersOf V := by
    simp only [fliersOf, seriesFilter_filterMap, hclean, hlfv, hufv]
  simp only [getBoxplotStats, hmed, hq1, hq3, hlfv, hufv, hflv]

theorem sortQ_exVclean : sortQ (exVclean.filterMap id) = [1, 2, 3] := by
  decide

theorem exVclean_med : groupMed exVclean = 2 := by
  have h : groupMed exVclean = quantileSorted (sortQ (exVclean.filterMap id)) (1/2) := rfl
  rw [h, sortQ_exVclean]
  have hfl : ⌊(1/2 : ℚ) * ((([1, 2, 3] : List ℚ).length : ℚ) - 1)⌋₊ = 1 := by
    rw [Nat.floor_eq_iff (by norm_num)]
    constructor <;> norm_num
  simp only [quantileSorted, hfl]
  norm_num [List.getD]

theorem exVclean_q1 : groupQ1 exVclean = 3/2 := by
  have h : groupQ1 exVclean = quantileSorted (sortQ (exVclean.filterMap id)) (1/4) := rfl
  rw [h, sortQ_exVclean]
  have hfl : ⌊(1/4 : ℚ) * ((([1, 2, 3] : List ℚ).length : ℚ) - 1)⌋₊ = 0 := by
    rw [Nat.floor_eq_zero]
    norm_num
  simp only [quantileSorted, hfl]
  norm_num [List.getD]

theorem exVclean_q3 : groupQ3 exVclean = 5/2 := by
  have h : groupQ3 exVclean = quantileSorted (sortQ (exVclean.filterMap id)) (3/4) := rfl
  rw [h, sortQ_exVclean]
  have hfl : ⌊(3/4 : ℚ) * ((([1, 2, 3] : List ℚ).length : ℚ) - 1)⌋₊ = 1 := by
    rw [Nat.floor_eq_iff (by norm_num)]
    constructor <;> norm_num
  simp only [quantileSorted, hfl]
  norm_num [List.getD]

theorem exVclean_low : lowLimit exVclean = 0 := by
  rw [lowLimit, iqrOf, exVclean_q1, exVclean_q3]
  norm_num

theorem exVclean_high : highLimit exVclean = 4 := by
  rw [highLimit, iqrOf, exVclean_q1, exVclean_q3]
  norm_num

theorem exVclean_inside : insideData exVclean = [some 1, some 2, some 3] := by
  simp only [insideData, exVclean_low, exVclean_high]
  norm_num [seriesFilter, exVclean, qle, List.filter]

theorem exVclean_lowerfence : lowerfenceOf exVclean = 1 := by
  simp only [lowerfenceOf, seriesMin, exVclean_inside]
  decide

theorem exVclean_upperfence : upperfenceOf exVclean = 3 := by
  simp only [upperfenceOf, seriesMax, exVclean_inside]
  decide

theorem exVclean_fliers : fliersOf exVclean = [] := by
  simp only [fliersOf, exVclean_lowerfence, exVclean_upperfence]
  decide

/-- C9 counterexample: on a group containing a `NaN` sample the aggregator
raises no error at all: it returns a complete statistics record, namely the
statistics of the finite values (the `NaN` is skipped by the quantiles,
excluded from the inside set and excluded from the fliers). No
`NonFiniteValueError` exists in the code. -/
theorem C9_counterexample :
    getBoxplotStats exVnan = getBoxplotStats exVclean ∧
    getBoxplotStats exVnan =
      { med := 2, q1 := 3/2, q3 := 5/2, lowerfence := 1, upperfence := 3, fliers := [] } := by
  have h1 : exVnan.filterMap id = exVclean.filterMap id := by decide
  have h2 := getBoxplotStats_skipna exVnan
  have h3 := getBoxplotStats_skipna exVclean
  rw [h1] at h2
  have hmain : getBoxplotStats exVnan = getBoxplotStats exVclean := h2.trans h3.symm
  refine ⟨hmain, ?_⟩
  rw [hmain]
  show (⟨groupMed exVclean, groupQ1 exVclean, groupQ3 exVclean, lowerfenceOf exVclean,
    upperfenceOf exVclean, fliersOf exVclean⟩ : BoxStats) = _
  rw [exVclean_med, exVclean_q1, exVclean_q3, exVclean_lowerfence, exVclean_upperfence,
    exVclean_fliers]

/-- C9 amended: the aggregator never validates finiteness: on a group
containing a `NaN` sample it silently computes the statistics of the
non-`NaN` values (pandas `skipna` semantics for the quantiles, false
comparisons for the filters) instead of failing. -/
theorem C9_nonfinite_amended (V : List (Option ℚ)) (hnan : none ∈ V) :
    getBoxplotStats V = getBoxplotStats ((V.filterMap id).map some) :=
  getBoxplotStats_skipna V

/-- Witness for the amended C9 at the concrete `NaN` group. -/
theorem C9_nonfinite_amended_witness :
    none ∈ exVnan ∧
      getBoxplotStats exVnan = getBoxplotStats ((exVnan.filterMap id).map some) :=
  ⟨by simp [exVnan], C9_nonfinite_amended exVnan (by simp [exVnan])⟩

/-! ### Theorems: splitting and joining FASTA headers -/

theorem splitPipe_ne_nil (l : List Char) : splitPipe l ≠ [] := by
  cases l with
  | nil => simp [splitPipe]
  | cons c rest =>
      simp only [splitPipe]
      by_cases h : c = '|'
      · simp [h]
      · simp only [if_neg h]
        cases hsp : splitPipe rest <;> simp

theorem splitPipe_no_pipe {l : List Char} (h : ('|' : Char) ∉ l) :
    splitPipe l = [l] := by
  induction l with
  | nil => rfl
  | cons c rest ih =>
      have hc : c ≠ '|' := fun hh => h (hh ▸ List.mem_cons_self c rest)
      have hrest : ('|' : Char) ∉ rest := fun hh => h (List.mem_cons_of_mem c hh)
      simp only [splitPipe, if_neg hc, ih hrest]

theorem splitPipe_append {x : List Char} (hx : ('|' : Char) ∉ x) (t : List Char) :
    splitPipe (x ++ '|' :: t) = x :: splitPipe t := by
  induction x with
  | nil => simp [splitPipe]
  | cons c x' ih =>
      have hc : c ≠ '|' := fun hh => hx (hh ▸ List.mem_cons_self c x')
      have hx' : ('|' : Char) ∉ x' := fun hh => hx (List.mem_cons_of_mem c hh)
      simp only [List.cons_append, splitPipe, if_neg hc, List.append_eq]
      rw [ih hx']

theorem splitPipe_joinPipe {ids : List (List Char)} (hne : ids ≠ [])
    (hpipe : ∀ t ∈ ids, ('|' : Char) ∉ t) :
    splitPipe (joinPipe ids) = ids := by
  induction ids with
  | nil => exact absurd rfl hne
  | cons x rest ih =>
      cases rest with
      | nil =>
          show splitPipe (joinPipe [x]) = [x]
          rw [joinPipe]
          exact splitPipe_no_pipe (hpipe x (List.mem_cons_self x []))
      | cons y rest' =>
          rw [joinPipe, splitPipe_append (hpipe x (List.mem_cons_self x _)),
            ih (by simp) (fun t ht => hpipe t (List.mem_cons_of_mem x ht))]

theorem canon_joinPipe {ids : List (List Char)} (hne : ids ≠ [])
    (hpipe : ∀ t ∈ ids, ('|' : Char) ∉ t) :
    canon (joinPipe ids) = sortIds ids := by
  rw [canon, splitPipe_joinPipe hne hpipe]

theorem canon_ne_nil (h : List Char) : canon h ≠ [] := by
  intro hc
  have h1 := splitPipe_ne_nil h
  have h2 : (canon h).length = (splitPipe h).length := length_sortLe _ _
  rw [hc] at h2
  exact h1 (List.length_eq_zero.mp h2.symm)

/-! ### Theorems: the label assignment -/

theorem repLe_trans : ∀ a b c, repLe a b = true → repLe b c = true → repLe a c = true :=
  fun _ _ _ h1 h2 => lexLe_trans h1 h2

theorem repLe_total : ∀ a b, repLe a b || repLe b a :=
  fun a b => lexLe_total (representative a) (representative b)

theorem headerLabelsFrom_map_fst (k : Nat) (hs : List (List Char)) :
    (headerLabelsFrom k hs).map Prod.fst = hs := by
  induction hs generalizing k with
  | nil => rfl
  | cons h t ih => simp [headerLabelsFrom, ih]

theorem headerLabelsFrom_map_snd (k : Nat) (hs : List (List Char)) :
    (headerLabelsFrom k hs).map Prod.snd =
      (List.range' k hs.length).map isoformName := by
  induction hs generalizing k with
  | nil => simp [headerLabelsFrom]
  | cons h t ih => simp [headerLabelsFrom, List.range'_succ, ih]

theorem labelFrom_map_fst (k : Nat) (G : List (List (List Char))) :
    (labelFrom k G).map Prod.fst = G.flatten := by
  induction G generalizing k with
  | nil => rfl
  | cons g gs ih =>
      simp only [labelFrom, List.map_append, List.map_map, ih, List.flatten_cons]
      have hcomp : (Prod.fst ∘ fun tid : List Char => (tid, isoformName k)) = id := rfl
      rw [hcomp, List.map_id]

theorem mem_labelFrom {k : Nat} {G : List (List (List Char))} {t : List Char}
    {lab : String} :
    (t, lab) ∈ labelFrom k G ↔
      ∃ i, i < G.length ∧ t ∈ G.getD i [] ∧ lab = isoformName (k + i) := by
  induction G generalizing k with
  | nil => simp [labelFrom]
  | cons g gs ih =>
      simp only [labelFrom, List.mem_append, List.mem_map, ih]
      constructor
      · rintro (⟨tid, htid, heq⟩ | ⟨i, hi, hmem, hlab⟩)
        · obtain ⟨h1, h2⟩ := Prod.mk.injEq .. ▸ heq
          refine ⟨0, by simp, ?_, by simpa using h2.symm⟩
          simpa [h1] using htid
        · refine ⟨i + 1, by simpa using hi, by simpa using hmem, ?_⟩
          rw [hlab]
          congr 1
          omega
      · rintro ⟨i, hi, hmem, hlab⟩
        cases i with
        | zero =>
            left
            refine ⟨t, by simpa using hmem, ?_⟩
            rw [hlab]
            simp
        | succ i =>
            right
            refine ⟨i, by simpa using hi, by simpa using hmem, ?_⟩
            rw [hlab]
            congr 1
            omega

/-- C4 counterexample: the label assigned to a single-header input is
`"Isoform 1"` (with a space), which is not of the claimed form
`"Isoform_<k>"`. -/
theorem C4_counterexample :
    headerMapping [hdrT] = [(hdrT, "Isoform 1")] ∧
      ("Isoform 1" : String) ≠ "Isoform_1" := by
  constructor
  · decide
  · decide

/-- C4 amended: the grouper sorts the groups by their lexicographically
smallest transcript id and numbers them sequentially, but the labels are
`"Isoform <k>"` with a space, not `"Isoform_<k>"`: the label list in group
order is `"Isoform 1", ..., "Isoform n"`, the keys are a permutation of the
headers, and the keys appear in ascending order of their representative
(smallest) transcript id. -/
theorem C4_isoform_labels_amended (headers : List (List Char)) :
    ((headerMapping headers).map Prod.snd =
        (List.range' 1 headers.length).map isoformName) ∧
    ((headerMapping headers).map Prod.fst).Perm headers ∧
    ((headerMapping headers).map Prod.fst).Pairwise
      (fun x y => lexLe (representative x) (representative y) = true) := by
  refine ⟨?_, ?_, ?_⟩
  · rw [headerMapping, headerLabelsFrom_map_snd, tempSorted, length_sortLe]
  · rw [headerMapping, headerLabelsFrom_map_fst]
    exact sortLe_perm _ _
  · rw [headerMapping, headerLabelsFrom_map_fst]
    exact sortLe_pairwise repLe repLe_trans repLe_total headers

/-! ### Theorems: empty input -/

theorem transcriptMapping_ne_nil {headers : List (List Char)}
    (hne : headers ≠ []) : transcriptMapping headers ≠ [] := by
  have hts : tempSorted headers ≠ [] := by
    intro h0
    have hlen : (tempSorted headers).length = headers.length := length_sortLe repLe headers
    rw [h0] at hlen
    exact hne (List.length_eq_zero.mp hlen.symm)
  rw [transcriptMapping]
  cases hG : (tempSorted headers).map canon with
  | nil => exact absurd (List.map_eq_nil_iff.mp hG) hts
  | cons g gs =>
      have hg : g ∈ (tempSorted headers).map canon := by
        rw [hG]; exact List.mem_cons_self g gs
      obtain ⟨x, -, hx⟩ := List.mem_map.mp hg
      have hgne : g ≠ [] := hx ▸ canon_ne_nil x
      rw [labelFrom]
      intro habs
      rcases List.append_eq_nil.mp habs with ⟨h1, -⟩
      exact hgne (List.map_eq_nil_iff.mp h1)

/-- C8 counterexample: on the empty transcript set `generate_isoform_mapping`
does fail, but with the pandas `KeyError` raised by
`sort_values("Transcript_ID")` on the empty (column-less) mapping table,
not with an `EmptyInputError`. -/
theorem C8_counterexample :
    generateIsoformMapping [] = Except.error "KeyError: Transcript_ID" ∧
      generateIsoformMapping [] ≠ Except.error "EmptyInputError" := by
  constructor
  · rfl
  · have h1 : generateIsoformMapping [] = Except.error "KeyError: Transcript_ID" := rfl
    rw [h1]
    intro h
    injection h with h2
    exact absurd h2 (by decide)

/-- C8 amended: `generate_isoform_mapping` raises an exception exactly on
the empty header list — a pandas `KeyError` from sorting the empty mapping
table, not a dedicated `EmptyInputError` — and on non-empty input returns
the header mapping. -/
theorem C8_empty_input_amended (headers : List (List Char)) :
    (generateIsoformMapping headers = Except.error "KeyError: Transcript_ID" ↔
        headers = []) ∧
    (headers ≠ [] →
        generateIsoformMapping headers = Except.ok (headerMapping headers)) := by
  constructor
  · constructor
    · intro h
      by_contra hne
      have := transcriptMapping_ne_nil hne
      rw [generateIsoformMapping] at h
      rw [if_neg (by simpa [List.isEmpty_iff] using this)] at h
      exact Except.noConfusion h
    · intro h
      subst h
      rfl
  · intro hne
    have := transcriptMapping_ne_nil hne
    rw [generateIsoformMapping, if_neg (by simpa [List.isEmpty_iff] using this)]

/-- Witness for the amended C8 at a one-header input. -/
theorem C8_empty_input_amended_witness :
    ([hdrT] ≠ ([] : List (List Char))) ∧
      generateIsoformMapping [hdrT] = Except.ok (headerMapping [hdrT]) :=
  ⟨by decide, (C8_empty_input_amended [hdrT]).2 (by decide)⟩

/-! ### Theorems: the sorted group order is determined by the groups -/

theorem map_representative_eq (l : List (List Char)) :
    l.map representative = (l.map canon).map (fun g => g.headD []) := by
  rw [List.map_map]
  rfl

theorem mapCanon_tempSorted_eq {h₁ h₂ : List (List Char)}
    (hperm : (h₁.map canon).Perm (h₂.map canon))
    (hrep : (h₁.map representative).Nodup) :
    (tempSorted h₁).map canon = (tempSorted h₂).map canon := by
  have hrep₂ : (h₂.map representative).Nodup := by
    rw [map_representative_eq] at hrep ⊢
    exact (hperm.map (fun g => g.headD [])).nodup_iff.mp hrep
  have hsorted : ∀ (h : List (List Char)),
      ((tempSorted h).map canon).Pairwise
        (fun g g' => lexLe (g.headD []) (g'.headD []) = true) := by
    intro h
    apply List.pairwise_map.mpr
    exact sortLe_pairwise repLe repLe_trans repLe_total h
  have hheads : ∀ (h : List (List Char)), (h.map representative).Nodup →
      ((tempSorted h).map canon).Pairwise
        (fun g g' => g.headD [] ≠ g'.headD []) := by
    intro h hnd
    apply List.pairwise_map.mpr
    have hperm' : ((tempSorted h).map representative).Perm (h.map representative) :=
      (sortLe_perm repLe h).map representative
    have hnd' : ((tempSorted h).map representative).Nodup :=
      hperm'.nodup_iff.mpr hnd
    exact List.pairwise_map.mp hnd'
  have hstrict : ∀ (h : List (List Char)), (h.map representative).Nodup →
      ((tempSorted h).map canon).Pairwise
        (fun g g' => lexLe (g.headD []) (g'.headD []) = true ∧
          g.headD [] ≠ g'.headD []) := by
    intro h hnd
    exact (hsorted h).and (hheads h hnd)
  have hpermTotal : ((tempSorted h₁).map canon).Perm ((tempSorted h₂).map canon) :=
    (((sortLe_perm repLe h₁).map canon).trans hperm).trans
      ((sortLe_perm repLe h₂).map canon).symm
  haveI : IsAntisymm (List (List Char))
      (fun g g' => lexLe (g.headD []) (g'.headD []) = true ∧
        g.headD [] ≠ g'.headD []) :=
    ⟨fun _ _ hab hba => absurd (lexLe_antisymm hab.1 hba.1) hab.2⟩
  exact List.eq_of_perm_of_sorted hpermTotal (hstrict h₁ hrep) (hstrict h₂ hrep₂)

/-- C10 counterexample: permuting the transcript ids inside a header
changes the keys of the returned header mapping, so the mapping is not
invariant under that permutation (the two runs assign the same label, but
to different literal header strings). -/
theorem C10_counterexample :
    headerMapping [hdrBA] ≠ headerMapping [hdrAB] ∧
      headerMapping [hdrBA] = [(hdrBA, "Isoform 1")] ∧
      headerMapping [hdrAB] = [(hdrAB, "Isoform 1")] := by
  refine ⟨?_, ?_, ?_⟩
  · decide
  · decide
  · decide

/-- C10 amended: the transcript-to-label table `transcript_mapping` (not the
header-keyed dict) is invariant under permuting the header order and the
ids within headers — i.e. under any change of the headers that preserves
their sorted id groups as a multiset — provided the smallest-id
representatives of the headers are pairwise distinct. -/
theorem C10_invariance_amended (h₁ h₂ : List (List Char))
    (hperm : (h₁.map canon).Perm (h₂.map canon))
    (hrep : (h₁.map representative).Nodup) :
    transcriptMapping h₁ = transcriptMapping h₂ := by
  rw [transcriptMapping, transcriptMapping, mapCanon_tempSorted_eq hperm hrep]

/-- Witness for the amended C10: swapping the ids inside a header leaves
the transcript-to-label table unchanged. -/
theorem C10_invariance_amended_witness :
    (([hdrBA].map canon).Perm ([hdrAB].map canon)) ∧
      (([hdrBA].map representative).Nodup) ∧
      transcriptMapping [hdrBA] = transcriptMapping [hdrAB] :=
  ⟨by decide, by decide, C10_invariance_amended [hdrBA] [hdrAB] (by decide) (by decide)⟩

/-! ### Theorems: grouping transcripts by sequence -/

theorem mem_idsOfSeq {ps : List (List Char × List Char)} {sq t : List Char} :
    t ∈ idsOfSeq ps sq ↔ ∃ kv ∈ ps, kv.1 = t ∧ kv.2 = sq := by
  simp only [idsOfSeq, List.mem_map, List.mem_filter, beq_iff_eq]
  constructor
  · rintro ⟨kv, ⟨hkv, hsq⟩, rfl⟩
    exact ⟨kv, hkv, rfl, hsq⟩
  · rintro ⟨kv, hkv, rfl, hsq⟩
    exact ⟨kv, ⟨hkv, hsq⟩, rfl⟩

theorem idsOfSeq_ne_nil {ps : List (List Char × List Char)} {sq : List Char}
    (h : sq ∈ ps.map Prod.snd) : idsOfSeq ps sq ≠ [] := by
  obtain ⟨kv, hkv, hsnd⟩ := List.mem_map.mp h
  intro h0
  have hm : kv.1 ∈ idsOfSeq ps sq := mem_idsOfSeq.mpr ⟨kv, hkv, rfl, hsnd⟩
  rw [h0] at hm
  simp at hm

theorem keys_inj {ps : List (List Char × List Char)}
    (hkeys : (ps.map Prod.fst).Nodup) {kv kv' : List Char × List Char}
    (h1 : kv ∈ ps) (h2 : kv' ∈ ps) (heq : kv.1 = kv'.1) : kv = kv' :=
  List.inj_on_of_nodup_map hkeys h1 h2 heq

theorem idsOfSeq_disjoint {ps : List (List Char × List Char)}
    (hkeys : (ps.map Prod.fst).Nodup) {sq sq' t : List Char}
    (hne : sq ≠ sq') (h1 : t ∈ idsOfSeq ps sq) (h2 : t ∈ idsOfSeq ps sq') :
    False := by
  obtain ⟨kv, hkv, hfst, hsnd⟩ := mem_idsOfSeq.mp h1
  obtain ⟨kv', hkv', hfst', hsnd'⟩ := mem_idsOfSeq.mp h2
  have heq := keys_inj hkeys hkv hkv' (hfst.trans hfst'.symm)
  apply hne
  rw [← hsnd, ← hsnd', heq]

theorem sortIds_ne_nil {ids : List (List Char)} (h : ids ≠ []) :
    sortIds ids ≠ [] := by
  intro h0
  have hlen : (sortIds ids).length = ids.length := length_sortLe lexLe ids
  rw [h0] at hlen
  exact h (List.length_eq_zero.mp hlen.symm)

theorem headD_mem_of_ne_nil {l : List (List Char)} (h : l ≠ []) :
    l.headD [] ∈ l := by
  cases l with
  | nil => exact absurd rfl h
  | cons x xs => simp

theorem flatten_idsOfSeq (ps : List (List Char × List Char)) :
    ∀ (seqs : List (List Char)), seqs.Nodup →
      ((seqs.map (idsOfSeq ps)).flatten).Perm
        ((ps.filter (fun kv => decide (kv.2 ∈ seqs))).map Prod.fst) := by
  intro seqs
  induction seqs with
  | nil =>
      intro _
      simp
  | cons sq rest ih =>
      intro hnodup
      rcases List.nodup_cons.mp hnodup with ⟨hsq, hrest⟩
      simp only [List.map_cons, List.flatten_cons]
      have hsplit : (ps.filter (fun kv => decide (kv.2 ∈ sq :: rest))).Perm
          ((ps.filter (fun kv => kv.2 == sq)) ++
            (ps.filter (fun kv => decide (kv.2 ∈ rest)))) := by
        have hp := List.filter_append_perm (fun kv => kv.2 == sq)
          (ps.filter (fun kv => decide (kv.2 ∈ sq :: rest)))
        rw [List.filter_filter, List.filter_filter] at hp
        have e1 : ps.filter
            (fun kv => (kv.2 == sq) && decide (kv.2 ∈ sq :: rest)) =
            ps.filter (fun kv => kv.2 == sq) := by
          apply List.filter_congr
          intro kv _
          by_cases h : kv.2 = sq
          · simp [h]
          · simp [h]
        have e2 : ps.filter
            (fun kv => !(kv.2 == sq) && decide (kv.2 ∈ sq :: rest)) =
            ps.filter (fun kv => decide (kv.2 ∈ rest)) := by
          apply List.filter_congr
          intro kv _
          by_cases h : kv.2 = sq
          · simp [h, hsq]
          · by_cases h2 : kv.2 ∈ rest
            · simp [h, h2]
            · simp [h, h2]
        rw [e1, e2] at hp
        exact hp.symm
      have hido : idsOfSeq ps sq =
          (ps.filter (fun kv => kv.2 == sq)).map Prod.fst := rfl
      have step1 : ((idsOfSeq ps sq) ++ (rest.map (idsOfSeq ps)).flatten).Perm
          ((ps.filter (fun kv => kv.2 == sq)).map Prod.fst ++
            (ps.filter (fun kv => decide (kv.2 ∈ rest))).map Prod.fst) := by
        rw [hido]
        exact (List.Perm.refl _).append (ih hrest)
      refine step1.trans ?_
      rw [← List.map_append]
      exact (hsplit.map Prod.fst).symm

theorem flatten_idsOfSeq_all {ps : List (List Char × List Char)}
    {seqs : List (List Char)} (hseqs : seqs.Nodup)
    (hmem : ∀ sq, sq ∈ seqs ↔ sq ∈ ps.map Prod.snd) :
    ((seqs.map (idsOfSeq ps)).flatten).Perm (ps.map Prod.fst) := by
  have h := flatten_idsOfSeq ps seqs hseqs
  have hall : ps.filter (fun kv => decide (kv.2 ∈ seqs)) = ps := by
    apply List.filter_eq_self.mpr
    intro kv hkv
    simp only [decide_eq_true_eq]
    exact (hmem kv.2).mpr (List.mem_map.mpr ⟨kv, hkv, rfl⟩)
  rwa [hall] at h

theorem fastaHeaders_map_canon {ps : List (List Char × List Char)}
    {seqs : List (List Char)}
    (hpipe : ∀ kv ∈ ps, ('|' : Char) ∉ kv.1)
    (hmem : ∀ sq, sq ∈ seqs → sq ∈ ps.map Prod.snd) :
    (fastaHeaders ps seqs).map canon =
      seqs.map (fun sq => sortIds (idsOfSeq ps sq)) := by
  rw [fastaHeaders, List.map_map]
  apply List.map_congr_left
  intro sq hsq
  show canon (joinPipe (idsOfSeq ps sq)) = _
  apply canon_joinPipe (idsOfSeq_ne_nil (hmem sq hsq))
  intro t ht
  obtain ⟨kv, hkv, hfst, -⟩ := mem_idsOfSeq.mp ht
  exact hfst ▸ hpipe kv hkv

theorem forall₂_sortIds_perm (ps : List (List Char × List Char))
    (seqs : List (List Char)) :
    List.Forall₂ (fun a b => a.Perm b)
      (seqs.map (fun sq => sortIds (idsOfSeq ps sq))) (seqs.map (idsOfSeq ps)) := by
  induction seqs with
  | nil => exact List.Forall₂.nil
  | cons sq rest ih => exact List.Forall₂.cons (sortLe_perm lexLe _) ih

theorem fastaHeaders_reps_nodup {ps : List (List Char × List Char)}
    {seqs : List (List Char)}
    (hkeys : (ps.map Prod.fst).Nodup)
    (hpipe : ∀ kv ∈ ps, ('|' : Char) ∉ kv.1)
    (hseqs : seqs.Nodup)
    (hmem : ∀ sq, sq ∈ seqs → sq ∈ ps.map Prod.snd) :
    ((fastaHeaders ps seqs).map representative).Nodup := by
  rw [map_representative_eq, fastaHeaders_map_canon hpipe hmem, List.map_map]
  rw [List.Nodup, List.pairwise_map]
  have hmemwise := List.Pairwise.and_mem.mp hseqs
  apply hmemwise.imp
  intro sq sq' h
  obtain ⟨hsq, hsq', hne⟩ := h
  intro heq
  simp only [Function.comp_apply] at heq
  have hne1 : sortIds (idsOfSeq ps sq) ≠ [] :=
    sortIds_ne_nil (idsOfSeq_ne_nil (hmem sq hsq))
  have h1 : (sortIds (idsOfSeq ps sq)).headD [] ∈ sortIds (idsOfSeq ps sq) :=
    headD_mem_of_ne_nil hne1
  have h2 : (sortIds (idsOfSeq ps sq)).headD [] ∈ sortIds (idsOfSeq ps sq') := by
    rw [heq]
    exact headD_mem_of_ne_nil (sortIds_ne_nil (idsOfSeq_ne_nil (hmem sq' hsq')))
  exact idsOfSeq_disjoint hkeys hne
    ((mem_sortLe lexLe).mp h1) ((mem_sortLe lexLe).mp h2)

theorem transcriptMapping_fst_perm {ps : List (List Char × List Char)}
    {seqs : List (List Char)}
    (hpipe : ∀ kv ∈ ps, ('|' : Char) ∉ kv.1)
    (hseqs : seqs.Nodup)
    (hmem : ∀ sq, sq ∈ seqs ↔ sq ∈ ps.map Prod.snd) :
    ((transcriptMapping (fastaHeaders ps seqs)).map Prod.fst).Perm
      (ps.map Prod.fst) := by
  rw [transcriptMapping, labelFrom_map_fst]
  have hcanon := fastaHeaders_map_canon hpipe (fun sq h => (hmem sq).mp h)
  have h1 : (((tempSorted (fastaHeaders ps seqs)).map canon).flatten).Perm
      ((seqs.map (fun sq => sortIds (idsOfSeq ps sq))).flatten) := by
    apply List.Perm.flatten
    have h2 := (sortLe_perm repLe (fastaHeaders ps seqs)).map canon
    rwa [hcanon] at h2
  have h3 : ((seqs.map (fun sq => sortIds (idsOfSeq ps sq))).flatten).Perm
      ((seqs.map (idsOfSeq ps)).flatten) :=
    List.Perm.flatten_congr (forall₂_sortIds_perm ps seqs)
  exact (h1.trans h3).trans (flatten_idsOfSeq_all hseqs hmem)

theorem transcriptMapping_label_iff {ps : List (List Char × List Char)}
    {seqs : List (List Char)}
    (hkeys : (ps.map Prod.fst).Nodup)
    (hpipe : ∀ kv ∈ ps, ('|' : Char) ∉ kv.1)
    (hseqs : seqs.Nodup)
    (hmem : ∀ sq, sq ∈ seqs ↔ sq ∈ ps.map Prod.snd)
    {t₁ s₁ t₂ s₂ : List Char} {l₁ l₂ : String}
    (hp1 : (t₁, s₁) ∈ ps) (hp2 : (t₂, s₂) ∈ ps)
    (hm1 : (t₁, l₁) ∈ transcriptMapping (fastaHeaders ps seqs))
    (hm2 : (t₂, l₂) ∈ transcriptMapping (fastaHeaders ps seqs)) :
    l₁ = l₂ ↔ s₁ = s₂ := by
  have hmem' : ∀ sq, sq ∈ seqs → sq ∈ ps.map Prod.snd := fun sq h => (hmem sq).mp h
  have hcanon := fastaHeaders_map_canon hpipe hmem'
  have hGperm : (((tempSorted (fastaHeaders ps seqs)).map canon)).Perm
      (seqs.map (fun sq => sortIds (idsOfSeq ps sq))) := by
    have h2 := (sortLe_perm repLe (fastaHeaders ps seqs)).map canon
    rwa [hcanon] at h2
  have hdisj_seqs : List.Pairwise
      (fun sq sq' => ∀ t, t ∈ sortIds (idsOfSeq ps sq) →
        t ∈ sortIds (idsOfSeq ps sq') → False) seqs := by
    apply hseqs.imp
    intro sq sq' hne t h1 h2
    exact idsOfSeq_disjoint hkeys hne
      ((mem_sortLe lexLe).mp h1) ((mem_sortLe lexLe).mp h2)
  have hdisjG : List.Pairwise (fun g g' => ∀ t, t ∈ g → t ∈ g' → False)
      ((tempSorted (fastaHeaders ps seqs)).map canon) := by
    have h1 : List.Pairwise (fun g g' => ∀ t, t ∈ g → t ∈ g' → False)
        (seqs.map (fun sq => sortIds (idsOfSeq ps sq))) :=
      List.pairwise_map.mpr hdisj_seqs
    exact (hGperm.pairwise_iff (fun h t ht1 ht2 => h t ht2 ht1)).mpr h1
  have hpos_unique : ∀ (t : List Char) i j,
      i < ((tempSorted (fastaHeaders ps seqs)).map canon).length →
      j < ((tempSorted (fastaHeaders ps seqs)).map canon).length →
      t ∈ ((tempSorted (fastaHeaders ps seqs)).map canon).getD i [] →
      t ∈ ((tempSorted (fastaHeaders ps seqs)).map canon).getD j [] → i = j := by
    intro t i j hi hj hti htj
    rw [List.getD_eq_getElem _ _ hi] at hti
    rw [List.getD_eq_getElem _ _ hj] at htj
    by_contra hij
    rcases Nat.lt_or_ge i j with h | h
    · exact (List.pairwise_iff_getElem.mp hdisjG) i j hi hj h t hti htj
    · have hlt : j < i := by omega
      exact (List.pairwise_iff_getElem.mp hdisjG) j i hj hi hlt t htj hti
  have hgroup_pos : ∀ sq ∈ seqs, ∃ k,
      k < ((tempSorted (fastaHeaders ps seqs)).map canon).length ∧
      ((tempSorted (fastaHeaders ps seqs)).map canon).getD k [] =
        sortIds (idsOfSeq ps sq) := by
    intro sq hsq
    have hmemG : sortIds (idsOfSeq ps sq) ∈
        (tempSorted (fastaHeaders ps seqs)).map canon :=
      hGperm.mem_iff.mpr (List.mem_map.mpr ⟨sq, hsq, rfl⟩)
    obtain ⟨k, hk, hkeq⟩ := List.mem_iff_getElem.mp hmemG
    exact ⟨k, hk, by rw [List.getD_eq_getElem _ _ hk, hkeq]⟩
  rw [transcriptMapping, mem_labelFrom] at hm1 hm2
  obtain ⟨i, hi, hti, hlab1⟩ := hm1
  obtain ⟨j, hj, htj, hlab2⟩ := hm2
  have hs1 : s₁ ∈ seqs := (hmem s₁).mpr (List.mem_map.mpr ⟨(t₁, s₁), hp1, rfl⟩)
  have hs2 : s₂ ∈ seqs := (hmem s₂).mpr (List.mem_map.mpr ⟨(t₂, s₂), hp2, rfl⟩)
  obtain ⟨k₁, hk₁, hk₁eq⟩ := hgroup_pos s₁ hs1
  obtain ⟨k₂, hk₂, hk₂eq⟩ := hgroup_pos s₂ hs2
  have ht₁g : t₁ ∈ sortIds (idsOfSeq ps s₁) :=
    (mem_sortLe lexLe).mpr (mem_idsOfSeq.mpr ⟨(t₁, s₁), hp1, rfl, rfl⟩)
  have ht₂g : t₂ ∈ sortIds (idsOfSeq ps s₂) :=
    (mem_sortLe lexLe).mpr (mem_idsOfSeq.mpr ⟨(t₂, s₂), hp2, rfl, rfl⟩)
  have hik₁ : i = k₁ :=
    hpos_unique t₁ i k₁ hi hk₁ hti (by rw [hk₁eq]; exact ht₁g)
  have hjk₂ : j = k₂ :=
    hpos_unique t₂ j k₂ hj hk₂ htj (by rw [hk₂eq]; exact ht₂g)
  constructor
  · intro hl
    have hij : i = j := by
      rw [hlab1, hlab2] at hl
      have := isoformName_injective hl
      omega
    -- both groups coincide, so t₂ lies in the group of s₁
    have hgeq : sortIds (idsOfSeq ps s₁) = sortIds (idsOfSeq ps s₂) := by
      rw [← hk₁eq, ← hk₂eq, ← hik₁, ← hjk₂, hij]
    have ht₂g' : t₂ ∈ idsOfSeq ps s₁ := by
      have := hgeq ▸ ht₂g
      exact (mem_sortLe lexLe).mp this
    obtain ⟨kv, hkv, hfst, hsnd⟩ := mem_idsOfSeq.mp ht₂g'
    have := keys_inj hkeys hkv hp2 (by rw [hfst])
    rw [← hsnd]
    rw [this]
  · intro hs
    subst hs
    have hk₁₂ : k₁ = k₂ := by
      apply hpos_unique t₁ k₁ k₂ hk₁ hk₂
      · rw [hk₁eq]; exact ht₁g
      · rw [hk₂eq]; exact ht₁g
    rw [hlab1, hlab2, hik₁, hjk₂, hk₁₂]

theorem transcriptMapping_det {ps : List (List Char × List Char)}
    {seqs seqs' : List (List Char)}
    (hkeys : (ps.map Prod.fst).Nodup)
    (hpipe : ∀ kv ∈ ps, ('|' : Char) ∉ kv.1)
    (hseqs : seqs.Nodup)
    (hmem : ∀ sq, sq ∈ seqs ↔ sq ∈ ps.map Prod.snd)
    (hseqs' : seqs'.Nodup)
    (hmem' : ∀ sq, sq ∈ seqs' ↔ sq ∈ ps.map Prod.snd) :
    transcriptMapping (fastaHeaders ps seqs) =
      transcriptMapping (fastaHeaders ps seqs') := by
  have hperm : ((fastaHeaders ps seqs).map canon).Perm
      ((fastaHeaders ps seqs').map canon) := by
    rw [fastaHeaders_map_canon hpipe (fun sq h => (hmem sq).mp h),
      fastaHeaders_map_canon hpipe (fun sq h => (hmem' sq).mp h)]
    apply List.Perm.map
    exact (List.perm_ext_iff_of_nodup hseqs hseqs').mpr
      (fun a => (hmem a).trans (hmem' a).symm)
  have hrep := fastaHeaders_reps_nodup hkeys hpipe hseqs
    (fun sq h => (hmem sq).mp h)
  rw [transcriptMapping, transcriptMapping, mapCanon_tempSorted_eq hperm hrep]

/-- C5. Composing the FASTA grouping of `get_transcripts_and_sequences`
with `generate_isoform_mapping`: the transcript-to-label table lists every
transcript exactly once (its id multiset equals the input key multiset);
two transcripts receive the same label exactly when their protein sequences
are identical; and the result does not depend on the enumeration order of
the (unordered) set of unique sequences. Hypotheses: transcript ids are
unique, contain no `"|"` (the header separator), and `seqs` enumerates the
distinct sequences. -/
theorem C5_isoform_grouper (ps : List (List Char × List Char))
    (seqs : List (List Char))
    (hkeys : (ps.map Prod.fst).Nodup)
    (hpipe : ∀ kv ∈ ps, ('|' : Char) ∉ kv.1)
    (hseqs : seqs.Nodup)
    (hmem : ∀ sq, sq ∈ seqs ↔ sq ∈ ps.map Prod.snd) :
    ((transcriptMapping (fastaHeaders ps seqs)).map Prod.fst).Perm
      (ps.map Prod.fst) ∧
    (∀ t₁ s₁ t₂ s₂ l₁ l₂, (t₁, s₁) ∈ ps → (t₂, s₂) ∈ ps →
        (t₁, l₁) ∈ transcriptMapping (fastaHeaders ps seqs) →
        (t₂, l₂) ∈ transcriptMapping (fastaHeaders ps seqs) →
        (l₁ = l₂ ↔ s₁ = s₂)) ∧
    (∀ seqs', seqs'.Nodup → (∀ sq, sq ∈ seqs' ↔ sq ∈ ps.map Prod.snd) →
        transcriptMapping (fastaHeaders ps seqs) =
          transcriptMapping (fastaHeaders ps seqs')) := by
  refine ⟨transcriptMapping_fst_perm hpipe hseqs hmem, ?_, ?_⟩
  · intro t₁ s₁ t₂ s₂ l₁ l₂ hp1 hp2 hm1 hm2
    exact transcriptMapping_label_iff hkeys hpipe hseqs hmem hp1 hp2 hm1 hm2
  · intro seqs' hseqs' hmem'
    exact transcriptMapping_det hkeys hpipe hseqs hmem hseqs' hmem'

/-- Witness for C5 at end-to-end example 4: three transcripts, two sharing
one sequence. -/
theorem C5_isoform_grouper_witness :
    ((exPs.map Prod.fst).Nodup ∧ exSeqs.Nodup) ∧
      ((transcriptMapping (fastaHeaders exPs exSeqs)).map Prod.fst).Perm
        (exPs.map Prod.fst) :=
  ⟨⟨by decide, by decide⟩,
    (C5_isoform_grouper exPs exSeqs (by decide) (by decide) (by decide)
      (by
        intro sq
        constructor
        · intro h
          simp only [exSeqs, List.mem_cons, List.mem_singleton] at h
          simp only [exPs, List.map_cons, List.map_nil, List.mem_cons]
          tauto
        · intro h
          simp only [exPs, List.map_cons, List.map_nil, List.mem_cons] at h
          simp only [exSeqs, List.mem_cons, List.mem_singleton]
          tauto)).1⟩
